import Mathlib

/-!
# Verification of the SYCL quantized tensor backend (ggml-sycl)

Shallow embedding, in Lean 4, of the parts of `ggml-sycl.cpp` and
`ggml-sycl/vecdotq.hpp` needed to settle the frozen claims about the
natural-language specification of the backend:

* the Q4_0 × Q8_1 fixed-point dot-product kernel and the Q4_0 dequantizer;
* the warp-level XOR-shuffle (butterfly) reductions;
* the Q8_1 on-the-fly quantizer;
* the row-softmax kernel with optional mask and ALiBi slope;
* the matrix-multiply dispatcher's path selection;
* the multi-device row-split boundary computation;
* the legacy best-fit device buffer pool;
* the argsort launcher's power-of-two precondition.

Machine integers are modelled as `Nat`/`Int` with explicit powers of two;
floating-point values are modelled as exact rationals (`ℚ`) or reals (`ℝ`),
so float-rounding questions are abstracted into exact arithmetic.
-/

/-! ## Byte-level primitives

The SYCL kernels reinterpret packed little-endian bytes as 32-bit integers
and operate on them with shifts, masks and the 4-way byte dot product
`dpct::dp4a`.  We model a 32-bit pattern as a `Nat` below `2^32` built from
its four bytes. -/

/-- Little-endian packing of four bytes into one 32-bit pattern.  This models
the memory reinterpretation performed by `get_int_from_uint8` /
`get_int_from_int8_aligned` in `vecdotq.hpp`, which read four consecutive
bytes of the block as one `int`. -/
def pack4 (b0 b1 b2 b3 : ℕ) : ℕ := b0 + 256 * (b1 + 256 * (b2 + 256 * b3))

/-- Byte `k` of a 32-bit pattern. -/
def byte (k v : ℕ) : ℕ := v / 2 ^ (8 * k) % 256

/-- Reinterpret a raw byte as a signed 8-bit integer (two's complement),
as `dpct::dp4a` does with each byte of its operands. -/
def toSigned8 (b : ℕ) : ℤ := if b < 128 then (b : ℤ) else (b : ℤ) - 256

/-- `dpct::dp4a a b c`: add to `c` the 4-way dot product of the signed bytes
of `a` and `b`. -/
def dp4a (a b : ℕ) (c : ℤ) : ℤ :=
  c + ∑ k ∈ Finset.range 4, toSigned8 (byte k a) * toSigned8 (byte k b)

/-- `(v >> 0) & 0x0F0F0F0F` — the low nibble of each byte. -/
def lowNibbles (v : ℕ) : ℕ := v &&& 0x0F0F0F0F

/-- `(v >> 4) & 0x0F0F0F0F` — the high nibble of each byte.  In the source
`v` is a C `int` and `>>` is an arithmetic shift, but the mask discards all
bits in which an arithmetic and a logical shift of the low 32 bits differ,
so the logical shift of the unsigned pattern is used here. -/
def highNibbles (v : ℕ) : ℕ := (v >>> 4) &&& 0x0F0F0F0F

theorem testBit_false_of_lt {b n i : ℕ} (hb : b < 2 ^ n) (hi : n ≤ i) :
    b.testBit i = false :=
  Nat.testBit_lt_two_pow (lt_of_lt_of_le hb (Nat.pow_le_pow_right (by norm_num) hi))

theorem testBit_pack4 (b0 b1 b2 b3 : ℕ) (h0 : b0 < 256) (h1 : b1 < 256)
    (h2 : b2 < 256) (h3 : b3 < 256) (j : ℕ) :
    (pack4 b0 b1 b2 b3).testBit j =
      if j < 8 then b0.testBit j
      else if j < 16 then b1.testBit (j - 8)
      else if j < 24 then b2.testBit (j - 16)
      else if j < 32 then b3.testBit (j - 24)
      else false := by
  have e : pack4 b0 b1 b2 b3 = 2 ^ 8 * (b1 + 256 * (b2 + 256 * b3)) + b0 := by
    unfold pack4; ring
  rw [e, Nat.testBit_mul_pow_two_add _ (by omega)]
  have e1 : b1 + 256 * (b2 + 256 * b3) = 2 ^ 8 * (b2 + 256 * b3) + b1 := by ring
  have e2 : b2 + 256 * b3 = 2 ^ 8 * b3 + b2 := by ring
  rw [e1, Nat.testBit_mul_pow_two_add _ (by omega),
      e2, Nat.testBit_mul_pow_two_add _ (by omega)]
  by_cases hj8 : j < 8
  · simp [hj8]
  by_cases hj16 : j < 16
  · have t1 : j - 8 < 8 := by omega
    simp [hj8, hj16, t1]
  by_cases hj24 : j < 24
  · have t1 : ¬ j - 8 < 8 := by omega
    have t2 : j - 8 - 8 < 8 := by omega
    have t2' : j - 16 < 8 := by omega
    have t3 : j - 8 - 8 = j - 16 := by omega
    simp [hj8, hj16, hj24, t1, t2, t2', t3]
  by_cases hj32 : j < 32
  · have t1 : ¬ j - 8 < 8 := by omega
    have t2 : ¬ j - 8 - 8 < 8 := by omega
    have t2' : ¬ j - 16 < 8 := by omega
    have t3 : j - 8 - 8 - 8 = j - 24 := by omega
    simp [hj8, hj16, hj24, hj32, t1, t2, t2', t3]
  · have t1 : ¬ j - 8 < 8 := by omega
    have t2 : ¬ j - 8 - 8 < 8 := by omega
    have t2' : ¬ j - 16 < 8 := by omega
    have t4 : b3.testBit (j - 8 - 8 - 8) = false :=
      testBit_false_of_lt (show b3 < 2 ^ 8 by omega) (by omega)
    simp [hj8, hj16, hj24, hj32, t1, t2, t2', t4]

theorem byte0_pack4 (b0 b1 b2 b3 : ℕ) (h0 : b0 < 256) :
    byte 0 (pack4 b0 b1 b2 b3) = b0 := by
  unfold byte pack4; omega

theorem byte1_pack4 (b0 b1 b2 b3 : ℕ) (h0 : b0 < 256) (h1 : b1 < 256) :
    byte 1 (pack4 b0 b1 b2 b3) = b1 := by
  unfold byte pack4; omega

theorem byte2_pack4 (b0 b1 b2 b3 : ℕ) (h0 : b0 < 256) (h1 : b1 < 256)
    (h2 : b2 < 256) : byte 2 (pack4 b0 b1 b2 b3) = b2 := by
  unfold byte pack4; omega

theorem byte3_pack4 (b0 b1 b2 b3 : ℕ) (h0 : b0 < 256) (h1 : b1 < 256)
    (h2 : b2 < 256) (h3 : b3 < 256) : byte 3 (pack4 b0 b1 b2 b3) = b3 := by
  unfold byte pack4; omega

theorem testBit_mask0F (j : ℕ) :
    (0x0F0F0F0F : ℕ).testBit j = decide (j < 32 ∧ j % 8 < 4) := by
  by_cases h : j < 32
  · interval_cases j <;> decide
  · have : (0x0F0F0F0F : ℕ).testBit j = false :=
      testBit_false_of_lt (show (0x0F0F0F0F : ℕ) < 2 ^ 32 by norm_num) (by omega)
    simp [this, h]

/-- Masking a packed word with `0x0F0F0F0F` masks each byte to its low
nibble. -/
theorem lowNibbles_pack4 (b0 b1 b2 b3 : ℕ) (h0 : b0 < 256) (h1 : b1 < 256)
    (h2 : b2 < 256) (h3 : b3 < 256) :
    lowNibbles (pack4 b0 b1 b2 b3) =
      pack4 (b0 % 16) (b1 % 16) (b2 % 16) (b3 % 16) := by
  have hmod : ∀ b i : ℕ, (b % 16).testBit i = (decide (i < 4) && b.testBit i) := by
    intro b i
    have : (16 : ℕ) = 2 ^ 4 := by norm_num
    rw [this, Nat.testBit_mod_two_pow]
  apply Nat.eq_of_testBit_eq
  intro j
  rw [lowNibbles, Nat.testBit_and, testBit_mask0F,
    testBit_pack4 _ _ _ _ h0 h1 h2 h3,
    testBit_pack4 _ _ _ _ (by omega) (by omega) (by omega) (by omega)]
  by_cases hj8 : j < 8
  · have e : j % 8 = j := by omega
    have h32 : j < 32 := by omega
    simp [hj8, hmod, e, h32, Bool.and_comm]
  by_cases hj16 : j < 16
  · have e : j % 8 = j - 8 := by omega
    have h32 : j < 32 := by omega
    simp [hj8, hj16, hmod, e, h32, Bool.and_comm]
  by_cases hj24 : j < 24
  · have e : j % 8 = j - 16 := by omega
    have h32 : j < 32 := by omega
    simp [hj8, hj16, hj24, hmod, e, h32, Bool.and_comm]
  by_cases hj32 : j < 32
  · have e : j % 8 = j - 24 := by omega
    simp [hj8, hj16, hj24, hj32, hmod, e, Bool.and_comm]
  · simp [hj8, hj16, hj24, hj32]

/-- Shifting a packed word right by 4 and masking with `0x0F0F0F0F` extracts
the high nibble of each byte. -/
theorem highNibbles_pack4 (b0 b1 b2 b3 : ℕ) (h0 : b0 < 256) (h1 : b1 < 256)
    (h2 : b2 < 256) (h3 : b3 < 256) :
    highNibbles (pack4 b0 b1 b2 b3) =
      pack4 (b0 / 16) (b1 / 16) (b2 / 16) (b3 / 16) := by
  have hdiv : ∀ b i : ℕ, (b / 16).testBit i = b.testBit (4 + i) := by
    intro b i
    have e : b / 16 = b >>> 4 := by rw [Nat.shiftRight_eq_div_pow]
    rw [e, Nat.testBit_shiftRight]
  have hdiv_hi : ∀ b i : ℕ, b < 256 → 4 ≤ i → (b / 16).testBit i = false := by
    intro b i hb hi
    exact testBit_false_of_lt (show b / 16 < 2 ^ 4 by omega) hi
  apply Nat.eq_of_testBit_eq
  intro j
  rw [highNibbles, Nat.testBit_and, testBit_mask0F, Nat.testBit_shiftRight,
    testBit_pack4 _ _ _ _ h0 h1 h2 h3,
    testBit_pack4 _ _ _ _ (by omega) (by omega) (by omega) (by omega)]
  by_cases hj32 : j < 32
  on_goal 2 =>
    have t1 : ¬ 4 + j < 8 := by omega
    have t2 : ¬ 4 + j < 16 := by omega
    have t3 : ¬ 4 + j < 24 := by omega
    have u1 : ¬ j < 8 := by omega
    have u2 : ¬ j < 16 := by omega
    have u3 : ¬ j < 24 := by omega
    have hb3 : (b3 / 16).testBit (j - 24) = false := hdiv_hi b3 (j - 24) h3 (by omega)
    by_cases t4 : 4 + j < 32 <;> simp [hj32, t1, t2, t3, t4, u1, u2, u3, hb3]
  by_cases hm : j % 8 < 4
  · -- the mask keeps this bit: both sides read the high nibble of byte k
    by_cases hj8 : j < 8
    · have t : 4 + j < 8 := by omega
      simp [hj8, hj32, hm, t, hdiv]
    by_cases hj16 : j < 16
    · have t1 : ¬ 4 + j < 8 := by omega
      have t2 : 4 + j < 16 := by omega
      have e : 4 + j - 8 = 4 + (j - 8) := by omega
      simp [hj8, hj16, hj32, hm, t1, t2, e, hdiv]
    by_cases hj24 : j < 24
    · have t1 : ¬ 4 + j < 8 := by omega
      have t2 : ¬ 4 + j < 16 := by omega
      have t3 : 4 + j < 24 := by omega
      have e : 4 + j - 16 = 4 + (j - 16) := by omega
      simp [hj8, hj16, hj24, hj32, hm, t1, t2, t3, e, hdiv]
    · have t1 : ¬ 4 + j < 8 := by omega
      have t2 : ¬ 4 + j < 16 := by omega
      have t3 : ¬ 4 + j < 24 := by omega
      have t4 : 4 + j < 32 := by omega
      have e : 4 + j - 24 = 4 + (j - 24) := by omega
      simp [hj8, hj16, hj24, hj32, hm, t1, t2, t3, t4, e, hdiv]
  · -- the mask clears this bit and the divided byte has no bit there either
    have hr : ∀ k : ℕ, k < 4 → 8 * k ≤ j → j < 8 * k + 8 →
        4 ≤ j - 8 * k := by omega
    by_cases hj8 : j < 8
    · simp [hj8, hj32, hm, hdiv_hi b0 j h0 (by omega)]
    by_cases hj16 : j < 16
    · simp [hj8, hj16, hj32, hm, hdiv_hi b1 (j - 8) h1 (by omega)]
    by_cases hj24 : j < 24
    · simp [hj8, hj16, hj24, hj32, hm, hdiv_hi b2 (j - 16) h2 (by omega)]
    · simp [hj8, hj16, hj24, hj32, hm, hdiv_hi b3 (j - 24) h3 (by omega)]

/-! ## Q4_0 / Q8_1 blocks and the fixed-point dot product (claim C1)

Block layouts are those of `ggml-common.h` (shared with every ggml backend,
not shipped with these sources); the spec fixes them: a Q4_0 block holds one
reduced-precision scale and 32 four-bit codes packed two per byte, a Q8_1
block holds a scale, the sum of the block's source values, and 32 signed
8-bit codes.  Scales and sums are modelled as exact rationals; code arrays
are modelled as total functions from byte index to raw byte value (only
indices below 16 resp. 32 are ever read). -/

/-- Number of source elements in a Q4_0 block. -/
def QK4_0 : ℕ := 32

/-- Quantization ratio of Q4_0 (two codes per byte). -/
def QR4_0 : ℕ := 2

/-- `QI4_0 = QK4_0 / (4 * QR4_0)`: number of 32-bit integers holding one
block's codes. -/
def QI4_0 : ℕ := QK4_0 / (4 * QR4_0)

/-- Number of elements in a Q8_1 block. -/
def QK8_1 : ℕ := 32

/-- `VDR_Q4_0_Q8_1_MMVQ`: how many contiguous integers each thread processes
in the MMVQ vec-dot kernel. -/
def VDR_Q4_0_Q8_1_MMVQ : ℕ := 2

/-- A `block_q4_0`: half-precision scale `d` and 16 packed code bytes. -/
structure BlockQ4_0 where
  d : ℚ
  qs : ℕ → ℕ

/-- A `block_q8_1`: half2 `ds = (d, s)` (scale and stored sum) and 32 signed
8-bit codes, kept as their raw (two's-complement) byte values. -/
structure BlockQ8_1 where
  dsx : ℚ
  dsy : ℚ
  qs : ℕ → ℕ

/-- `get_int_from_uint8`: reinterpret four consecutive bytes of a byte array
as one little-endian 32-bit integer. -/
def get_int_from_uint8 (x8 : ℕ → ℕ) (i32 : ℕ) : ℕ :=
  pack4 (x8 (4 * i32)) (x8 (4 * i32 + 1)) (x8 (4 * i32 + 2)) (x8 (4 * i32 + 3))

/-- `get_int_from_int8_aligned`: same reinterpretation for an `int8_t` array
(the raw bytes are the codes' two's-complement representations). -/
def get_int_from_int8_aligned (x8 : ℕ → ℕ) (i32 : ℕ) : ℕ :=
  pack4 (x8 (4 * i32)) (x8 (4 * i32 + 1)) (x8 (4 * i32 + 2)) (x8 (4 * i32 + 3))

/-- `vec_dot_q4_0_q8_1_impl<vdr>`: accumulate packed 4-bit × 8-bit products
into `sumi` with `dp4a` and return `d4 * (sumi * ds8.x - (8*vdr/QI4_0) * ds8.y)`.
(`v i` is the i-th packed weight word, `u j` the j-th packed query word.) -/
def vec_dot_q4_0_q8_1_impl (vdr : ℕ) (v u : ℕ → ℕ) (d4 ds8x ds8y : ℚ) : ℚ :=
  let sumi : ℤ := (List.range vdr).foldl
    (fun acc i =>
      dp4a (highNibbles (v i)) (u (2 * i + 1))
        (dp4a (lowNibbles (v i)) (u (2 * i)) acc)) 0
  d4 * ((sumi : ℚ) * ds8x - ((8 * vdr / QI4_0 : ℕ) : ℚ) * ds8y)

/-- `vec_dot_q4_0_q8_1`: load `VDR` packed words of the Q4_0 block at quant
index `iqs` and the matching low/high packed words of the Q8_1 block, and run
the impl routine. -/
def vec_dot_q4_0_q8_1 (bq4_0 : BlockQ4_0) (bq8_1 : BlockQ8_1) (iqs : ℕ) : ℚ :=
  vec_dot_q4_0_q8_1_impl VDR_Q4_0_Q8_1_MMVQ
    (fun i => get_int_from_uint8 bq4_0.qs (iqs + i))
    (fun j =>
      if j % 2 = 0 then get_int_from_int8_aligned bq8_1.qs (iqs + j / 2)
      else get_int_from_int8_aligned bq8_1.qs (iqs + j / 2 + QI4_0))
    bq4_0.d bq8_1.dsx bq8_1.dsy

/-- `dequantize_q4_0`: unpack byte `iqs` of a block into its two codes and
apply `value = (code - 8) * d` to each. -/
def dequantize_q4_0 (x : BlockQ4_0) (iqs : ℕ) : ℚ × ℚ :=
  let vui := x.qs iqs
  (((vui &&& 0xF : ℕ) - 8 : ℚ) * x.d, (((vui >>> 4 : ℕ) - 8 : ℚ)) * x.d)

/-- The dense 32-element row reconstructed from one Q4_0 block by
`dequantize_q4_0`, in the layout used by `dequantize_block_q4_0` and
`dequantize_mul_mat_vec`: the low nibble of byte `j` is element `j`, the
high nibble is element `j + 16`. -/
def dequantRowQ4_0 (x : BlockQ4_0) (i : ℕ) : ℚ :=
  if i < 16 then (dequantize_q4_0 x i).1 else (dequantize_q4_0 x (i - 16)).2

/-- The dense query value represented by element `i` of a Q8_1 block:
signed code times scale. -/
def q8_1_value (y : BlockQ8_1) (i : ℕ) : ℚ := y.dsx * ((toSigned8 (y.qs i) : ℤ) : ℚ)

/-- Modelled from the spec: the reference dot product over one block pair,
"computed by fully dequantizing the block first" — the ordinary dot product
of the dequantized weight row with the query vector. -/
def refDotQ4_0_Q8_1 (x : BlockQ4_0) (y : BlockQ8_1) : ℚ :=
  ∑ i ∈ Finset.range 32, dequantRowQ4_0 x i * q8_1_value y i

/-- Block-level SIMD dot product: the MMVQ kernel accumulates
`vec_dot_q4_0_q8_1` over the block's two quant-index positions
`iqs ∈ {0, 2}` (each call covers `VDR = 2` of the `QI4_0 = 4` packed words). -/
def simdDotQ4_0_Q8_1 (x : BlockQ4_0) (y : BlockQ8_1) : ℚ :=
  vec_dot_q4_0_q8_1 x y 0 + vec_dot_q4_0_q8_1 x y 2

theorem toSigned8_of_lt {b : ℕ} (h : b < 128) : toSigned8 b = (b : ℤ) := by
  unfold toSigned8; simp [h]

theorem and_15_eq_mod (b : ℕ) : b &&& 0xF = b % 16 := by
  have : (0xF : ℕ) = 2 ^ 4 - 1 := by norm_num
  rw [this, Nat.and_pow_two_sub_one_eq_mod]

theorem toSigned8_mod16 (b : ℕ) : toSigned8 (b % 16) = ((b % 16 : ℕ) : ℤ) :=
  toSigned8_of_lt (by omega)

theorem toSigned8_div16 {b : ℕ} (hb : b < 256) :
    toSigned8 (b / 16) = ((b / 16 : ℕ) : ℤ) :=
  toSigned8_of_lt (by omega)

theorem shiftRight4_eq_div (b : ℕ) : b >>> 4 = b / 16 := by
  rw [Nat.shiftRight_eq_div_pow]

theorem mod16_lt_256 (b : ℕ) : b % 16 < 256 := by omega

theorem div16_lt_256 {b : ℕ} (hb : b < 256) : b / 16 < 256 := by omega

set_option maxHeartbeats 3200000 in
/-- **C1**: for every Q4_0 weight block and corresponding Q8_1 query block,
the fixed-point SIMD dot-product routine `vec_dot_q4_0_q8_1_impl`
(accumulated by the MMVQ kernel over the block's two quant-index positions)
yields exactly the same value as the reference dot product obtained by first
dequantizing every 4-bit code via `value = (code - 8) * d4`
(`dequantize_q4_0`) and then taking the ordinary dot product with the query
vector.  Floating-point rounding is abstracted by exact rational arithmetic;
the hypothesis `hsum` states that the Q8_1 block's stored sum is the sum of
the query values it represents, which is what the rounding tolerance of the
spec accounts for. -/
theorem vec_dot_q4_0_q8_1_matches_reference (x : BlockQ4_0) (y : BlockQ8_1)
    (hx : ∀ j, x.qs j < 256) (hy : ∀ j, y.qs j < 256)
    (hsum : y.dsy = y.dsx * ∑ i ∈ Finset.range 32, ((toSigned8 (y.qs i) : ℤ) : ℚ)) :
    simdDotQ4_0_Q8_1 x y = refDotQ4_0_Q8_1 x y := by
  have hr2 : List.range 2 = [0, 1] := rfl
  simp only [simdDotQ4_0_Q8_1, vec_dot_q4_0_q8_1, vec_dot_q4_0_q8_1_impl,
    VDR_Q4_0_Q8_1_MMVQ, QI4_0, QK4_0, QR4_0, get_int_from_uint8,
    get_int_from_int8_aligned, hr2, List.foldl_cons, List.foldl_nil]
  norm_num only
  simp only [lowNibbles_pack4, highNibbles_pack4, hx]
  simp only [dp4a, Finset.sum_range_succ, Finset.sum_range_zero, reduceIte,
    byte0_pack4, byte1_pack4, byte2_pack4, byte3_pack4, mod16_lt_256,
    div16_lt_256, hx, hy, toSigned8_mod16, toSigned8_div16]
  simp only [refDotQ4_0_Q8_1, dequantRowQ4_0, dequantize_q4_0, q8_1_value,
    Finset.sum_range_succ, Finset.sum_range_zero, and_15_eq_mod,
    shiftRight4_eq_div, reduceIte]
  norm_num only
  simp only [if_true, if_false]
  rw [hsum]
  simp only [Finset.sum_range_succ, Finset.sum_range_zero]
  simp only [Int.cast_add, Int.cast_mul, Int.cast_natCast, Int.cast_zero]
  ring

/-- A concrete Q4_0 block used to witness C1. -/
def c1WitnessX : BlockQ4_0 := ⟨1, fun j => (17 * j + 3) % 256⟩

/-- A concrete Q8_1 block used to witness C1 (scale 1, stored sum equal to
the sum of its codes). -/
def c1WitnessY : BlockQ8_1 :=
  ⟨1, ∑ i ∈ Finset.range 32, ((toSigned8 ((7 * i + 100) % 256) : ℤ) : ℚ),
    fun j => (7 * j + 100) % 256⟩

/-- Witness for C1 at a concrete block pair. -/
theorem vec_dot_q4_0_q8_1_matches_reference_witness :
    simdDotQ4_0_Q8_1 c1WitnessX c1WitnessY = refDotQ4_0_Q8_1 c1WitnessX c1WitnessY :=
  vec_dot_q4_0_q8_1_matches_reference c1WitnessX c1WitnessY
    (fun j => Nat.mod_lt _ (by norm_num))
    (fun j => Nat.mod_lt _ (by norm_num))
    (by simp [c1WitnessY])

/-! ## Warp-level XOR-shuffle reductions (claims C8, C10)

`warp_reduce_sum` and `warp_reduce_max` run
`for (int mask = 16; mask > 0; mask >>= 1)` and combine each lane's value
with the value of lane `lane ^^^ mask` obtained from
`dpct::permute_sub_group_by_xor`.  A warp state is a total function from
lane index to value; only lanes `< 32` are meaningful. -/

/-- One XOR-shuffle exchange step: every lane `i` combines its own value
with the value held by lane `i ^^^ mask`. -/
def shuffleXorStep (op : ℚ → ℚ → ℚ) (mask : ℕ) (f : ℕ → ℚ) : ℕ → ℚ :=
  fun i => op (f i) (f (i ^^^ mask))

/-- The mask sequence of the loop `for (mask = m; mask > 0; mask >>= 1)`. -/
def reduceMasks (mask : ℕ) : List ℕ :=
  if h : 0 < mask then mask :: reduceMasks (mask >>> 1) else []
decreasing_by
  simpa [Nat.shiftRight_succ] using Nat.div_lt_self h (by norm_num)

/-- `warp_reduce_sum`: butterfly reduction with `+` over masks 16,8,4,2,1. -/
def warp_reduce_sum (f : ℕ → ℚ) : ℕ → ℚ :=
  (reduceMasks 16).foldl (fun g mask => shuffleXorStep (· + ·) mask g) f

/-- `warp_reduce_max`: butterfly reduction with `max` over masks 16,8,4,2,1. -/
def warp_reduce_max (f : ℕ → ℚ) : ℕ → ℚ :=
  (reduceMasks 16).foldl (fun g mask => shuffleXorStep max mask g) f

theorem reduceMasks_sixteen : reduceMasks 16 = [16, 8, 4, 2, 1] := by
  have h1 : (16 : ℕ) >>> 1 = 8 := rfl
  have h2 : (8 : ℕ) >>> 1 = 4 := rfl
  have h3 : (4 : ℕ) >>> 1 = 2 := rfl
  have h4 : (2 : ℕ) >>> 1 = 1 := rfl
  have h5 : (1 : ℕ) >>> 1 = 0 := rfl
  simp [reduceMasks, h1, h2, h3, h4, h5]

/-- XOR of `2^k` with a multiple of `2^(k+1)` is addition (disjoint bits). -/
theorem xor_two_pow_mul (k t : ℕ) :
    (2 ^ k) ^^^ (2 ^ (k + 1) * t) = 2 ^ k + 2 ^ (k + 1) * t := by
  apply Nat.eq_of_testBit_eq
  intro j
  have hlt : (2 : ℕ) ^ k < 2 ^ (k + 1) := by
    exact Nat.pow_lt_pow_right (by norm_num) (by omega)
  have e : 2 ^ k + 2 ^ (k + 1) * t = 2 ^ (k + 1) * t + 2 ^ k := by ring
  rw [Nat.testBit_xor, e, Nat.testBit_mul_pow_two_add _ hlt]
  have e0 : (2 : ℕ) ^ (k + 1) * t = 2 ^ (k + 1) * t + 0 := by ring
  rw [e0, Nat.testBit_mul_pow_two_add _ (show 0 < 2 ^ (k + 1) by positivity)]
  by_cases hj : j < k + 1
  · simp [hj]
  · have hne : (2 ^ k).testBit j = false := by
      rw [Nat.testBit_two_pow]
      simp [show k ≠ j by omega]
    simp [hj, hne]


theorem xor_cancel_left (a b : ℕ) : a ^^^ (a ^^^ b) = b := by
  rw [← Nat.xor_assoc, Nat.xor_self, Nat.zero_xor]

theorem sum_range_even_odd (n : ℕ) (u : ℕ → ℚ) :
    ∑ s ∈ Finset.range (2 * n), u s =
      ∑ t ∈ Finset.range n, u (2 * t) + ∑ t ∈ Finset.range n, u (2 * t + 1) := by
  induction n with
  | zero => simp
  | succ m ih =>
    have e : 2 * (m + 1) = 2 * m + 1 + 1 := by ring
    rw [e, Finset.sum_range_succ, Finset.sum_range_succ,
      Finset.sum_range_succ, Finset.sum_range_succ, ih]
    ring

/-- One `+`-butterfly step turns a sum over multiples of `2*m` into a sum
over multiples of `m` (for `m` a power of two). -/
theorem sumStep (m k n : ℕ) (hm : m = 2 ^ k) (f g : ℕ → ℚ)
    (hg : ∀ i, g i = ∑ t ∈ Finset.range n, f (i ^^^ t * (2 * m))) :
    ∀ i, shuffleXorStep (· + ·) m g i =
      ∑ t ∈ Finset.range (2 * n), f (i ^^^ t * m) := by
  intro i
  have key : ∀ t : ℕ, (i ^^^ m) ^^^ t * (2 * m) = i ^^^ (2 * t + 1) * m := by
    intro t
    have h1 : t * (2 * m) = 2 ^ (k + 1) * t := by rw [hm]; ring
    have h2 : m ^^^ t * (2 * m) = (2 * t + 1) * m := by
      rw [h1, hm, xor_two_pow_mul]; ring
    rw [Nat.xor_assoc, h2]
  have key0 : ∀ t : ℕ, i ^^^ t * (2 * m) = i ^^^ 2 * t * m := by
    intro t
    have : t * (2 * m) = 2 * t * m := by ring
    rw [this]
  rw [sum_range_even_odd]
  simp only [shuffleXorStep, hg, key, key0]

/-- All-lanes characterization of the `+`-butterfly: after the five steps
every lane `i < 32` holds the sum over all 32 lanes. -/
theorem warp_reduce_sum_eq (f : ℕ → ℚ) (i : ℕ) (hi : i < 32) :
    warp_reduce_sum f i = ∑ j ∈ Finset.range 32, f j := by
  have h0 : ∀ i, f i = ∑ t ∈ Finset.range 1, f (i ^^^ t * (2 * 16)) := by
    intro i; simp
  have h16 := sumStep 16 4 1 (by norm_num) f f h0
  have h8 := sumStep 8 3 2 (by norm_num) f _ h16
  have h4 := sumStep 4 2 4 (by norm_num) f _ h8
  have h2 := sumStep 2 1 8 (by norm_num) f _ h4
  have h1 := sumStep 1 0 16 (by norm_num) f _ h2
  have hfold : warp_reduce_sum f i =
      shuffleXorStep (· + ·) 1 (shuffleXorStep (· + ·) 2 (shuffleXorStep (· + ·) 4
        (shuffleXorStep (· + ·) 8 (shuffleXorStep (· + ·) 16 f)))) i := by
    rw [warp_reduce_sum, reduceMasks_sixteen]
    rfl
  rw [hfold]
  have h1' := h1 i
  norm_num at h1'
  rw [h1']
  -- reindex `t ↦ i ^^^ t` over `range 32`
  apply Finset.sum_nbij' (fun t => i ^^^ t) (fun j => i ^^^ j)
  · intro a ha
    simp only [Finset.mem_range] at ha ⊢
    have : (32 : ℕ) = 2 ^ 5 := by norm_num
    rw [this] at ha ⊢
    exact Nat.xor_lt_two_pow (by omega) ha
  · intro a ha
    simp only [Finset.mem_range] at ha ⊢
    have : (32 : ℕ) = 2 ^ 5 := by norm_num
    rw [this] at ha ⊢
    exact Nat.xor_lt_two_pow (by omega) ha
  · intro a _; exact xor_cancel_left i a
  · intro a _; exact xor_cancel_left i a
  · intro a _; rfl

/-- The `max`-butterfly never exceeds an upper bound of the input lanes. -/
theorem maxStepLe (m : ℕ) (hm : m < 32) (g : ℕ → ℚ) (B : ℚ)
    (hg : ∀ i, i < 32 → g i ≤ B) :
    ∀ i, i < 32 → shuffleXorStep max m g i ≤ B := by
  intro i hi
  have hxor : i ^^^ m < 32 := by
    have h32 : (32 : ℕ) = 2 ^ 5 := by norm_num
    rw [h32] at hi hm ⊢
    exact Nat.xor_lt_two_pow hi hm
  exact max_le (hg i hi) (hg _ hxor)

/-- One `max`-butterfly step halves the stride of reachable lanes: if `g i`
dominates `f` at all offsets that are multiples of `2*m`, then the stepped
state dominates `f` at all offsets that are multiples of `m`. -/
theorem maxStepReach (m k : ℕ) (hm : m = 2 ^ k) (f g : ℕ → ℚ)
    (hg : ∀ i c, c < 32 → c % (2 * m) = 0 → f (i ^^^ c) ≤ g i) :
    ∀ i c, c < 32 → c % m = 0 → f (i ^^^ c) ≤ shuffleXorStep max m g i := by
  intro i c hc hcm
  by_cases h2m : c % (2 * m) = 0
  · exact le_trans (hg i c hc h2m) (le_max_left _ _)
  · -- `c = m + c'` with `c'` a multiple of `2*m`
    have hmpos : 0 < m := by rw [hm]; positivity
    obtain ⟨t, ht⟩ : ∃ t, c = m * (2 * t + 1) := by
      obtain ⟨q, hq⟩ := Nat.dvd_of_mod_eq_zero hcm
      have hodd : q % 2 = 1 := by
        rcases Nat.mod_two_eq_zero_or_one q with h | h
        · exfalso
          obtain ⟨r, hr⟩ := Nat.dvd_of_mod_eq_zero h
          apply h2m
          rw [hq, hr]
          have : m * (2 * r) = (2 * m) * r := by ring
          rw [this, Nat.mul_mod_right]
        · exact h
      refine ⟨q / 2, ?_⟩
      rw [hq]
      congr 1
      omega
    have hsplit : i ^^^ c = (i ^^^ m) ^^^ (2 * m * t) := by
      have h1 : (2 : ℕ) * m * t = 2 ^ (k + 1) * t := by rw [hm]; ring
      have h2 : m ^^^ (2 * m * t) = c := by
        rw [h1, hm, xor_two_pow_mul, ht, hm]; ring
      rw [Nat.xor_assoc, h2]
    have hc' : 2 * m * t < 32 := by
      calc 2 * m * t ≤ m * (2 * t + 1) := by nlinarith
      _ = c := ht.symm
      _ < 32 := hc
    have hmod : (2 * m * t) % (2 * m) = 0 := by
      have : 2 * m * t = (2 * m) * t := by ring
      rw [this, Nat.mul_mod_right]
    calc f (i ^^^ c) = f ((i ^^^ m) ^^^ (2 * m * t)) := by rw [hsplit]
    _ ≤ g (i ^^^ m) := hg (i ^^^ m) _ hc' hmod
    _ ≤ shuffleXorStep max m g i := le_max_right _ _

/-- All-lanes characterization of the `max`-butterfly: after the five steps
every lane `i < 32` holds the maximum over all 32 lanes. -/
theorem warp_reduce_max_eq (f : ℕ → ℚ) (i : ℕ) (hi : i < 32) :
    warp_reduce_max f i =
      (Finset.range 32).sup' ⟨0, by norm_num⟩ f := by
  have hfold : ∀ j, warp_reduce_max f j =
      shuffleXorStep max 1 (shuffleXorStep max 2 (shuffleXorStep max 4
        (shuffleXorStep max 8 (shuffleXorStep max 16 f)))) j := by
    intro j
    rw [warp_reduce_max, reduceMasks_sixteen]
    rfl
  apply le_antisymm
  · -- the result is built from lane values, each below the sup
    rw [hfold]
    refine maxStepLe 1 (by norm_num) _ _
      (maxStepLe 2 (by norm_num) _ _
        (maxStepLe 4 (by norm_num) _ _
          (maxStepLe 8 (by norm_num) _ _
            (maxStepLe 16 (by norm_num) _ _ ?_)))) i hi
    intro j hj
    exact Finset.le_sup' f (by simpa using hj)
  · -- every lane value is reachable, so the sup is dominated
    apply Finset.sup'_le
    intro j hj
    simp only [Finset.mem_range] at hj
    have h0 : ∀ i c, c < 32 → c % (2 * 16) = 0 → f (i ^^^ c) ≤ f i := by
      intro i c hc hcm
      have : c = 0 := by omega
      simp [this]
    have h16 := maxStepReach 16 4 (by norm_num) f f h0
    have h8 := maxStepReach 8 3 (by norm_num) f _ h16
    have h4 := maxStepReach 4 2 (by norm_num) f _ h8
    have h2 := maxStepReach 2 1 (by norm_num) f _ h4
    have h1 := maxStepReach 1 0 (by norm_num) f _ h2
    have hc : i ^^^ j < 32 := by
      have h32 : (32 : ℕ) = 2 ^ 5 := by norm_num
      rw [h32] at hi hj ⊢
      exact Nat.xor_lt_two_pow hi hj
    have := h1 i (i ^^^ j) hc (Nat.mod_one _)
    rw [xor_cancel_left] at this
    rw [hfold]
    exact this

/-- **C8**: the group-reduction primitives `warp_reduce_sum` and
`warp_reduce_max` perform exactly 5 XOR-shuffle exchange steps with masks
16, 8, 4, 2, 1, and for every assignment of input values to the 32 lanes of
a SIMD group, after the call every lane holds the sum (respectively the
maximum) of all 32 lanes' input values. -/
theorem warp_reduce_butterfly_correct :
    reduceMasks 16 = [16, 8, 4, 2, 1] ∧
    (∀ (f : ℕ → ℚ) (i : ℕ), i < 32 →
      warp_reduce_sum f i = ∑ j ∈ Finset.range 32, f j) ∧
    (∀ (f : ℕ → ℚ) (i : ℕ), i < 32 →
      warp_reduce_max f i = (Finset.range 32).sup' ⟨0, by norm_num⟩ f) :=
  ⟨reduceMasks_sixteen, warp_reduce_sum_eq, warp_reduce_max_eq⟩

/-- Witness for C8: concrete lane values on lane 3. -/
theorem warp_reduce_butterfly_correct_witness :
    warp_reduce_sum (fun j => (j : ℚ)) 3 = ∑ j ∈ Finset.range 32, (j : ℚ) :=
  warp_reduce_butterfly_correct.2.1 (fun j => (j : ℚ)) 3 (by norm_num)

/-! ## `quantize_q8_1` (claim C10)

One warp quantizes one 32-element Q8_1 block of a padded row.  `base` is the
block's first column index, `kx` the unpadded row length (the launch pads
rows to a multiple of the warp width, so a block never straddles the grid
边 boundary).  The kernel inlines exactly the XOR-butterfly loops modelled by
`warp_reduce_max` / `warp_reduce_sum`. -/

/-- `const float xi = ix < kx ? x[iy*kx + ix] : 0.0f` for lane `t` of the
block at `base` (the row offset `iy*kx` is folded into `x`). -/
def q8_1_padded (x : ℕ → ℚ) (kx base t : ℕ) : ℚ :=
  if base + t < kx then x (base + t) else 0

/-- `sycl::round`: round half away from zero, as C `roundf`. -/
def roundAway (q : ℚ) : ℤ := if 0 ≤ q then ⌊q + 1 / 2⌋ else -⌊-q + 1 / 2⌋

/-- `quantize_q8_1` for one block: returns the 32 stored codes, the stored
scale `d = amax/127` and the stored sum (lane 0 writes the latter two). -/
def quantize_q8_1 (x : ℕ → ℚ) (kx base : ℕ) : (ℕ → ℤ) × ℚ × ℚ :=
  (fun t =>
    let xi := q8_1_padded x kx base t
    let amax := warp_reduce_max (fun s => |q8_1_padded x kx base s|) t
    let d := amax / 127
    if amax = 0 then 0 else roundAway (xi / d),
   warp_reduce_max (fun s => |q8_1_padded x kx base s|) 0 / 127,
   warp_reduce_sum (fun s => q8_1_padded x kx base s) 0)

theorem roundAway_zero : roundAway 0 = 0 := by
  unfold roundAway
  norm_num

/-- **C10**: in `quantize_q8_1` the division by the scale is guarded: when
the block's maximum absolute value `amax` is zero (equivalently, every
in-range source value of the block is zero), every stored code is `0` and
the stored scale `d = amax/127` is `0` (the guarded branch never divides);
and every padded lane (column index `≥ kx`) contributes `0`: its code is
stored as `0`, and the stored sum is the sum of the in-range values only. -/
theorem quantize_q8_1_guard_padding (x : ℕ → ℚ) (kx base : ℕ) :
    ((∀ t, t < 32 → q8_1_padded x kx base t = 0) →
      (quantize_q8_1 x kx base).2.1 = 0 ∧
      ∀ t, t < 32 → (quantize_q8_1 x kx base).1 t = 0) ∧
    (∀ t, t < 32 → kx ≤ base + t → (quantize_q8_1 x kx base).1 t = 0) ∧
    (quantize_q8_1 x kx base).2.2 =
      ∑ t ∈ (Finset.range 32).filter (fun t => base + t < kx), x (base + t) := by
  have habs : ∀ t, t < 32 →
      warp_reduce_max (fun s => |q8_1_padded x kx base s|) t =
        (Finset.range 32).sup' ⟨0, by norm_num⟩ (fun s => |q8_1_padded x kx base s|) :=
    fun t ht => warp_reduce_max_eq _ t ht
  refine ⟨?_, ?_, ?_⟩
  · intro hzero
    have hsup : (Finset.range 32).sup' ⟨0, by norm_num⟩
        (fun s => |q8_1_padded x kx base s|) = 0 := by
      apply le_antisymm
      · apply Finset.sup'_le
        intro s hs
        simp only [Finset.mem_range] at hs
        rw [hzero s hs]
        norm_num
      · refine le_trans ?_ (Finset.le_sup' _ (by norm_num : (0 : ℕ) ∈ Finset.range 32))
        positivity
    constructor
    · simp only [quantize_q8_1, habs 0 (by norm_num), hsup]
      norm_num
    · intro t ht
      simp [quantize_q8_1, habs t ht, hsup]
  · intro t ht hpad
    have hxi : q8_1_padded x kx base t = 0 := by
      unfold q8_1_padded
      rw [if_neg (by omega)]
    simp only [quantize_q8_1, hxi]
    rw [zero_div, roundAway_zero]
    split <;> rfl
  · simp only [quantize_q8_1]
    rw [warp_reduce_sum_eq _ 0 (by norm_num)]
    rw [Finset.sum_filter]
    apply Finset.sum_congr rfl
    intro t _
    unfold q8_1_padded
    split <;> simp

/-- Witness for C10 on a concrete all-zero block with `kx = 20`, `base = 0`. -/
theorem quantize_q8_1_guard_padding_witness :
    (quantize_q8_1 (fun _ => 0) 20 0).2.1 = 0 ∧
    (quantize_q8_1 (fun _ => 0) 20 0).1 25 = 0 :=
  ⟨((quantize_q8_1_guard_padding (fun _ => 0) 20 0).1
      (fun t _ => by unfold q8_1_padded; split <;> rfl)).1,
   (quantize_q8_1_guard_padding (fun _ => 0) 20 0).2.1 25 (by norm_num) (by norm_num)⟩

/-! ## `soft_max_f32` (claim C3)

Sequential per-row semantics of the kernel (the parallel version partitions
the same loops over threads and combines partial maxima/sums with the
butterfly reductions above).  Floats are exact rationals and the
transcendental `sycl::native::exp` is an arbitrary strictly positive
function `E`, over which the claim holds. -/

/-- The ALiBi slope computed per row when `max_bias > 0.0f`
(`h = rowx / nrows_y` is the head index). -/
def softMaxSlope (max_bias m0 m1 : ℚ) (n_head_log2 nrows_y rowx : ℕ) : ℚ :=
  if 0 < max_bias then
    let h := rowx / nrows_y
    if h < n_head_log2 then m0 ^ (h + 1) else m1 ^ (2 * (h - n_head_log2) + 1)
  else 0

/-- `val = x[ix]*scale + (mask ? mask[iy] : 0.0f) + (pos ? slope*pos[col] : 0.0f)`
with `ix = rowx*ncols + col` and `iy = (rowx % nrows_y)*ncols + col`. -/
def softMaxVal (x mask pos : ℕ → ℚ) (useMask usePos : Bool) (scale slope : ℚ)
    (ncols nrows_y rowx col : ℕ) : ℚ :=
  x (rowx * ncols + col) * scale
    + (if useMask then mask (rowx % nrows_y * ncols + col) else 0)
    + (if usePos then slope * pos col else 0)

/-- `float max_val = -INFINITY; for (col) max_val = max(max_val, vals[col])`:
`⊥` of `WithBot ℚ` plays the role of `-INFINITY`. -/
def rowMaxFold (ncols : ℕ) (vals : ℕ → ℚ) : WithBot ℚ :=
  (List.range ncols).foldl (fun m c => max m (vals c : WithBot ℚ)) ⊥

/-- One output element of `soft_max_f32`: exponentiate relative to the row
maximum, then scale by the reciprocal of the row sum of exponentials. -/
def soft_max_f32 (E : ℚ → ℚ) (x mask pos : ℕ → ℚ) (useMask usePos : Bool)
    (scale max_bias m0 m1 : ℚ) (n_head_log2 ncols nrows_y rowx col : ℕ) : ℚ :=
  let slope := softMaxSlope max_bias m0 m1 n_head_log2 nrows_y rowx
  let vals := softMaxVal x mask pos useMask usePos scale slope ncols nrows_y rowx
  let max_val := (rowMaxFold ncols vals).unbot' 0
  let tmp := ∑ c ∈ Finset.range ncols, E (vals c - max_val)
  E (vals col - max_val) * (1 / tmp)

theorem rowMaxFold_eq_sup' (ncols : ℕ) (hn : 0 < ncols) (vals : ℕ → ℚ) :
    rowMaxFold ncols vals =
      ((Finset.range ncols).sup' ⟨0, Finset.mem_range.mpr hn⟩ vals : ℚ) := by
  induction ncols with
  | zero => omega
  | succ n ih =>
    rw [rowMaxFold, List.range_succ, List.foldl_append, List.foldl_cons,
      List.foldl_nil]
    rcases Nat.eq_zero_or_pos n with hz | hpos
    · subst hz
      simp [rowMaxFold, Finset.sup'_singleton]
    · rw [show (List.range n).foldl (fun m c => max m (vals c : WithBot ℚ)) ⊥ =
        rowMaxFold n vals from rfl, ih hpos]
      rw [Finset.coe_sup' , Finset.coe_sup']
      rw [Finset.range_succ, Finset.sup_insert]
      simp [sup_comm]

/-- **C3**: for every row processed by `soft_max_f32`, each output element
equals `E(v[col] - rowmax)` divided by the row sum of `E(v[col] - rowmax)`,
where `v[col] = x[col]*scale` plus the mask value when a mask is supplied
plus `slope*pos[col]` when positions are supplied, `rowmax` is the maximum
of `v` over the row, and for `max_bias > 0` the ALiBi slope uses base `m0`
with exponent `h+1` below the `n_head_log2` boundary and base `m1` with
exponent `2*(h - n_head_log2) + 1` at or above it; consequently every output
row sums to 1.  (`E` stands for the strictly positive `exp`.) -/
theorem soft_max_f32_rows (E : ℚ → ℚ) (x mask pos : ℕ → ℚ)
    (useMask usePos : Bool) (scale max_bias m0 m1 : ℚ)
    (n_head_log2 ncols nrows_y rowx : ℕ)
    (hE : ∀ z, 0 < E z) (hn : 0 < ncols) :
    (∀ col, col < ncols →
      soft_max_f32 E x mask pos useMask usePos scale max_bias m0 m1
          n_head_log2 ncols nrows_y rowx col =
        E (softMaxVal x mask pos useMask usePos scale
              (softMaxSlope max_bias m0 m1 n_head_log2 nrows_y rowx)
              ncols nrows_y rowx col
            - (Finset.range ncols).sup' ⟨0, Finset.mem_range.mpr hn⟩
                (softMaxVal x mask pos useMask usePos scale
                  (softMaxSlope max_bias m0 m1 n_head_log2 nrows_y rowx)
                  ncols nrows_y rowx)) /
          ∑ c ∈ Finset.range ncols,
            E (softMaxVal x mask pos useMask usePos scale
                  (softMaxSlope max_bias m0 m1 n_head_log2 nrows_y rowx)
                  ncols nrows_y rowx c
                - (Finset.range ncols).sup' ⟨0, Finset.mem_range.mpr hn⟩
                    (softMaxVal x mask pos useMask usePos scale
                      (softMaxSlope max_bias m0 m1 n_head_log2 nrows_y rowx)
                      ncols nrows_y rowx))) ∧
    ∑ col ∈ Finset.range ncols,
      soft_max_f32 E x mask pos useMask usePos scale max_bias m0 m1
        n_head_log2 ncols nrows_y rowx col = 1 := by
  set slope := softMaxSlope max_bias m0 m1 n_head_log2 nrows_y rowx with hslope
  set vals := softMaxVal x mask pos useMask usePos scale slope ncols nrows_y rowx
    with hvals
  set M : ℚ := (Finset.range ncols).sup' ⟨0, Finset.mem_range.mpr hn⟩ vals with hM
  have hmax : (rowMaxFold ncols vals).unbot' 0 = M := by
    rw [rowMaxFold_eq_sup' ncols hn vals]
    rfl
  have htmp_pos : 0 < ∑ c ∈ Finset.range ncols, E (vals c - M) :=
    Finset.sum_pos (fun c _ => hE _) ⟨0, Finset.mem_range.mpr hn⟩
  constructor
  · intro col _
    rw [soft_max_f32, hmax, mul_one_div]
  · have : ∀ col ∈ Finset.range ncols,
        soft_max_f32 E x mask pos useMask usePos scale max_bias m0 m1
          n_head_log2 ncols nrows_y rowx col =
        E (vals col - M) * (1 / ∑ c ∈ Finset.range ncols, E (vals c - M)) := by
      intro col _
      rw [soft_max_f32, hmax]
    rw [Finset.sum_congr rfl this, ← Finset.sum_mul]
    rw [mul_one_div, div_self (ne_of_gt htmp_pos)]

/-- Witness for C3 with `E = const 1` on a 2-column row. -/
theorem soft_max_f32_rows_witness :
    ∑ col ∈ Finset.range 2,
      soft_max_f32 (fun _ => 1) (fun i => (i : ℚ)) (fun _ => 0) (fun _ => 0)
        false false 1 0 1 1 0 2 1 0 col = 1 :=
  (soft_max_f32_rows (fun _ => 1) (fun i => (i : ℚ)) (fun _ => 0) (fun _ => 0)
    false false 1 0 1 1 0 2 1 0 (fun _ => by norm_num) (by norm_num)).2

/-! ## `ggml_sycl_mul_mat` dispatch (claim C2)

The dispatcher's selection logic from `ggml-sycl.cpp`.  Threshold constants
(`VER_4VEC`, `VER_GEN9`, `XMX_MAX_BATCH_SIZE`, `GGML_SYCL_DMMV_X`) and the
compile-time `SYCL_USE_XMX` flag live in `ggml-sycl/presets.hpp`, which is
not among the sources, so they are inputs of the model; the claims do not
depend on their numeric values.  The default build (no
`GGML_SYCL_FORCE_DMMV`) is modelled. -/

inductive GgmlBackend where
  | CPU | GPU | GPU_SPLIT
deriving DecidableEq

inductive GgmlType where
  | F32 | F16
  | Q4_0 | Q4_1 | Q5_0 | Q5_1 | Q8_0
  | Q2_K | Q3_K | Q4_K | Q5_K | Q6_K
  | IQ2_XXS | IQ2_XS | IQ1_S | IQ3_XXS | IQ3_S
deriving DecidableEq

/-- Modelled from the spec: `ggml_is_quantized` of the host tensor library
(not among the sources) — every element type except dense float32/float16
is a quantized codec format. -/
def ggml_is_quantized : GgmlType → Bool
  | .F32 => false
  | .F16 => false
  | _ => true

/-- The matmul strategies the dispatcher can route to. -/
inductive MulMatPath where
  | MulMatVecP021    -- permuted KQ single-batch kernel
  | MulMatVecNC      -- non-contiguous KQV single-batch kernel
  | MulMatBatched    -- batched mixed-precision GEMM
  | DenseSycl        -- plain dense GEMM (ggml_sycl_op_mul_mat_sycl)
  | MulMatVecQ       -- quantized-vector dot-product path
  | DequantMulMatVec -- dequantize-based per-row vector kernel
  | MulMatQ          -- MMQ tiled path
deriving DecidableEq

/-- Backend thresholds and flags from `ggml-sycl/presets.hpp`, plus the
minimum compute capability over the participating devices. -/
structure DispatchEnv where
  VER_4VEC : ℤ
  VER_GEN9 : ℤ
  XMX_MAX_BATCH_SIZE : ℕ
  GGML_SYCL_DMMV_X : ℕ
  use_xmx : Bool
  min_compute_capability : ℤ

/-- The tensor facts `ggml_sycl_mul_mat` inspects. -/
structure MulMatArgs where
  src0_backend : GgmlBackend
  src1_backend : GgmlBackend
  dst_backend : GgmlBackend
  src0_type : GgmlType
  src0_is_permuted : Bool
  src1_is_permuted : Bool
  src0_is_contiguous : Bool
  src0_is_transposed : Bool
  src1_is_transposed : Bool
  src0_ne0 : ℕ          -- src0->ne[0]
  src1_ne1 : ℕ          -- src1->ne[1]
  src1_ne2 : ℕ          -- src1->ne[2]
  src1_ne3 : ℕ          -- src1->ne[3]

/-- Modelled from the spec: `ggml_nrows(src1)` of the host tensor library —
the number of rows, i.e. the product of all dimensions above the first. -/
def src1_nrows (a : MulMatArgs) : ℕ := a.src1_ne1 * a.src1_ne2 * a.src1_ne3

/-- The path selection of `ggml_sycl_mul_mat` (`none` models the fatal
`GGML_ASSERT(false)` for unsupported types). -/
def ggml_sycl_mul_mat (env : DispatchEnv) (a : MulMatArgs) : Option MulMatPath :=
  let all_on_device :=
    (a.src0_backend = .GPU ∨ a.src0_backend = .GPU_SPLIT) ∧
    a.src1_backend = .GPU ∧ a.dst_backend = .GPU
  let split := a.src0_backend = .GPU_SPLIT
  if ¬split ∧ all_on_device ∧ env.use_xmx = false ∧ a.src0_type = .F16 ∧
      a.src0_is_permuted ∧ a.src1_is_permuted ∧ a.src1_ne1 = 1 then
    some .MulMatVecP021
  else if ¬split ∧ all_on_device ∧ env.use_xmx = false ∧ a.src0_type = .F16 ∧
      ¬a.src0_is_contiguous ∧ ¬a.src1_is_transposed ∧ a.src1_ne1 = 1 then
    some .MulMatVecNC
  else if ¬split ∧ all_on_device ∧ env.use_xmx = true ∧ a.src0_type = .F16 ∧
      ¬a.src0_is_transposed ∧ ¬a.src1_is_transposed then
    some .MulMatBatched
  else if a.src0_type = .F32 then
    some .DenseSycl
  else if ggml_is_quantized a.src0_type ∨ a.src0_type = .F16 then
    if a.src1_ne1 = 1 ∧ a.src0_ne0 % env.GGML_SYCL_DMMV_X = 0 then
      if env.VER_4VEC ≤ env.min_compute_capability ∧
          ggml_is_quantized a.src0_type ∧ src1_nrows a = 1 then
        some .MulMatVecQ
      else
        some .DequantMulMatVec
    else
      if (env.VER_4VEC ≤ env.min_compute_capability ∧
            ggml_is_quantized a.src0_type) ∧
          ¬(env.use_xmx ∧ env.VER_GEN9 ≤ env.min_compute_capability ∧
            env.XMX_MAX_BATCH_SIZE < a.src1_ne1) then
        some .MulMatQ
      else
        some .DenseSycl
  else
    none

/-- Concrete dispatch environment for C2 (representative threshold values;
`use_xmx` on, capable device). -/
def c2Env : DispatchEnv := ⟨610, 700, 32, 32, true, 700⟩

/-- Quantized matrix-vector input with batched rows:
`ne = (64, 1, 2, 1)` gives one column but `ggml_nrows(src1) = 2`. -/
def c2Args : MulMatArgs :=
  ⟨.GPU, .GPU, .GPU, .Q4_0, false, false, true, false, false, 64, 1, 2, 1⟩

/-- **C2 counterexample**: the hardware supports fast integer SIMD and
`src1` has more than one query row, yet the dispatcher selects the
dequantize-based kernel, not `ggml_sycl_op_mul_mat_vec_q` — the code gates
the quantized-vector path on `ggml_nrows(src1) == 1`, not on "more than one
query row". -/
theorem ggml_sycl_mul_mat_vecq_counterexample :
    ggml_is_quantized c2Args.src0_type = true ∧
    c2Args.src1_ne1 = 1 ∧
    c2Env.VER_4VEC ≤ c2Env.min_compute_capability ∧
    1 < src1_nrows c2Args ∧
    ggml_sycl_mul_mat c2Env c2Args = some .DequantMulMatVec := by
  decide

/-- **C2 (amended)**: for a quantized weight operand, when `src1->ne[1] == 1`
and `src0->ne[0]` is divisible by `GGML_SYCL_DMMV_X`, the dispatcher selects
the quantized-vector dot-product path exactly when the hardware supports
fast integer SIMD (`min_compute_capability >= VER_4VEC`) and `src1` has
exactly one row in total (`ggml_nrows(src1) == 1`), and otherwise the
dequantize-based per-row vector kernel; in every other case (more than one
column, or a misaligned row length) it selects the MMQ tiled path exactly
when `min_compute_capability >= VER_4VEC` and the XMX batch-size override
(`use_xmx && min_compute_capability >= VER_GEN9 && ne[1] >
XMX_MAX_BATCH_SIZE`) does not fire, and otherwise the dense-GEMM fallback. -/
theorem ggml_sycl_mul_mat_quantized_dispatch (env : DispatchEnv)
    (a : MulMatArgs) (hq : ggml_is_quantized a.src0_type = true) :
    ggml_sycl_mul_mat env a =
      some (if a.src1_ne1 = 1 ∧ a.src0_ne0 % env.GGML_SYCL_DMMV_X = 0 then
              (if env.VER_4VEC ≤ env.min_compute_capability ∧ src1_nrows a = 1
               then .MulMatVecQ else .DequantMulMatVec)
            else
              (if env.VER_4VEC ≤ env.min_compute_capability ∧
                  ¬(env.use_xmx ∧ env.VER_GEN9 ≤ env.min_compute_capability ∧
                    env.XMX_MAX_BATCH_SIZE < a.src1_ne1)
               then .MulMatQ else .DenseSycl)) := by
  have h16 : a.src0_type ≠ .F16 := by
    intro h; rw [h] at hq; exact Bool.noConfusion hq
  have h32 : a.src0_type ≠ .F32 := by
    intro h; rw [h] at hq; exact Bool.noConfusion hq
  simp [ggml_sycl_mul_mat, hq, h16, h32]
  split_ifs <;> rfl

/-- Witness for the amended C2 at a concrete unbatched input (selects the
quantized-vector path). -/
theorem ggml_sycl_mul_mat_quantized_dispatch_witness :
    ggml_sycl_mul_mat c2Env
        ⟨.GPU, .GPU, .GPU, .Q4_0, false, false, true, false, false, 64, 1, 1, 1⟩ =
      some (if (1 : ℕ) = 1 ∧ (64 : ℕ) % c2Env.GGML_SYCL_DMMV_X = 0 then
              (if c2Env.VER_4VEC ≤ c2Env.min_compute_capability ∧
                  src1_nrows ⟨.GPU, .GPU, .GPU, .Q4_0, false, false, true, false,
                    false, 64, 1, 1, 1⟩ = 1
               then .MulMatVecQ else .DequantMulMatVec)
            else
              (if c2Env.VER_4VEC ≤ c2Env.min_compute_capability ∧
                  ¬(c2Env.use_xmx ∧ c2Env.VER_GEN9 ≤ c2Env.min_compute_capability ∧
                    c2Env.XMX_MAX_BATCH_SIZE < 1)
               then .MulMatQ else .DenseSycl)) :=
  ggml_sycl_mul_mat_quantized_dispatch c2Env _ (by decide)

/-! ## `argsort_f32_i32_sycl` (claim C7)

The launcher checks the bitonic-sort precondition
`GGML_ASSERT((ncols & (ncols - 1)) == 0)` and then launches
`k_argsort_f32_i32` instantiated with the requested order.  A fatal
assertion is modelled as `none`; a successful launch carries the selected
order.  (For `ncols = 0` the C expression is `0 & -1 == 0`, which also
passes; natural subtraction gives the same result.) -/

inductive GgmlSortOrder where
  | ASC | DESC
deriving DecidableEq

/-- `argsort_f32_i32_sycl`: precondition check and kernel selection. -/
def argsort_f32_i32_sycl (ncols : ℕ) (order : GgmlSortOrder) :
    Option GgmlSortOrder :=
  if ncols &&& (ncols - 1) = 0 then some order else none

theorem two_mul_land_pred (m : ℕ) (hm : 0 < m) :
    (2 * m) &&& (2 * m - 1) = 2 * (m &&& (m - 1)) := by
  apply Nat.eq_of_testBit_eq
  intro j
  cases j with
  | zero =>
    rw [Nat.testBit_and]
    simp only [Nat.testBit_zero]
    have h1 : (2 * m) % 2 = 0 := by omega
    have h2 : (2 * (m &&& (m - 1))) % 2 = 0 := by omega
    simp [h1, h2]
  | succ i =>
    rw [Nat.testBit_and, Nat.testBit_succ, Nat.testBit_succ, Nat.testBit_succ,
      ← Nat.testBit_and]
    have e1 : 2 * m / 2 = m := by omega
    have e2 : (2 * m - 1) / 2 = m - 1 := by omega
    have e3 : 2 * (m &&& (m - 1)) / 2 = m &&& (m - 1) := by omega
    rw [e1, e2, e3]

theorem odd_land_pred (m : ℕ) : (2 * m + 1) &&& (2 * m) = 2 * m := by
  apply Nat.eq_of_testBit_eq
  intro j
  cases j with
  | zero =>
    rw [Nat.testBit_and]
    simp only [Nat.testBit_zero]
    have h1 : (2 * m) % 2 = 0 := by omega
    simp [h1]
  | succ i =>
    rw [Nat.testBit_and, Nat.testBit_succ, Nat.testBit_succ]
    have e1 : (2 * m + 1) / 2 = m := by omega
    have e2 : 2 * m / 2 = m := by omega
    rw [e1, e2]
    simp

/-- The bitonic precondition characterizes powers of two among positive row
lengths. -/
theorem land_pred_eq_zero_iff (n : ℕ) (hn : 0 < n) :
    n &&& (n - 1) = 0 ↔ ∃ k, n = 2 ^ k := by
  constructor
  · intro h
    induction n using Nat.strong_induction_on with
    | _ n ih =>
      rcases Nat.even_or_odd n with ⟨m, hm⟩ | ⟨m, hm⟩
      · have hm2 : n = 2 * m := by omega
        have hmpos : 0 < m := by omega
        have hml : m &&& (m - 1) = 0 := by
          have := two_mul_land_pred m hmpos
          rw [← hm2] at this
          omega
        obtain ⟨k, hk⟩ := ih m (by omega) hmpos hml
        exact ⟨k + 1, by rw [hm2, hk]; ring⟩
      · rcases Nat.eq_zero_or_pos m with hz | hpos
        · exact ⟨0, by omega⟩
        · exfalso
          have hsub : n - 1 = 2 * m := by omega
          have := odd_land_pred m
          rw [← hm, ← hsub] at this
          omega
  · rintro ⟨k, rfl⟩
    apply Nat.eq_of_testBit_eq
    intro j
    rw [Nat.testBit_and, Nat.testBit_two_pow, Nat.testBit_two_pow_sub_one]
    rcases Nat.lt_trichotomy k j with h | h | h <;> simp [h] <;> omega

/-- **C7 counterexample**: `ncols = 0` is not a power of two, yet the
assertion `(ncols & (ncols - 1)) == 0` passes and the kernel is launched. -/
theorem argsort_power_of_two_counterexample :
    argsort_f32_i32_sycl 0 .ASC = some .ASC ∧ ∀ k : ℕ, (2 : ℕ) ^ k ≠ 0 := by
  constructor
  · decide
  · intro k
    positivity

/-- **C7 (amended)**: for every positive row length `ncols`,
`argsort_f32_i32_sycl` triggers the fatal precondition assertion exactly
when `ncols` is not a power of two (no truncation or padding), and for every
power-of-two `ncols` the assertion passes and the bitonic-sort kernel is
launched with the selected ascending or descending order. -/
theorem argsort_power_of_two_precondition (ncols : ℕ) (order : GgmlSortOrder)
    (hn : 0 < ncols) :
    (argsort_f32_i32_sycl ncols order = none ↔ ¬ ∃ k, ncols = 2 ^ k) ∧
    ((∃ k, ncols = 2 ^ k) → argsort_f32_i32_sycl ncols order = some order) := by
  unfold argsort_f32_i32_sycl
  constructor
  · constructor
    · intro hnone hpow
      rw [if_pos ((land_pred_eq_zero_iff ncols hn).mpr hpow)] at hnone
      exact Option.noConfusion hnone
    · intro hpow
      rw [if_neg]
      intro h0
      exact hpow ((land_pred_eq_zero_iff ncols hn).mp h0)
  · intro hpow
    rw [if_pos ((land_pred_eq_zero_iff ncols hn).mpr hpow)]

/-- Witness for the amended C7 at `ncols = 8`. -/
theorem argsort_power_of_two_precondition_witness :
    argsort_f32_i32_sycl 8 .DESC = some .DESC :=
  (argsort_power_of_two_precondition 8 .DESC (by norm_num)).2 ⟨3, by norm_num⟩

/-! ## Row splitting in `ggml_sycl_op_mul_mat` (claim C4)

For a split weight tensor the per-device row ranges are derived from the
cumulative `tensor_split` fractions: `row_low = ne01*tensor_split[i]`
(float product truncated to integer) rounded down to a multiple of the
format-specific `get_row_rounding`, except that device 0 starts at row 0 and
the last device ends at `ne01`, and boundaries `≥ ne01` are left unrounded. -/

/-- `get_row_rounding`: the row alignment for a weight type, given the
maximum compute capability of the participating devices and the `VER_GEN9`
threshold. -/
def get_row_rounding (max_cc ver_gen9 : ℤ) : GgmlType → ℕ
  | .Q4_0 | .Q4_1 => if ver_gen9 ≤ max_cc then 128 else 64
  | .Q5_0 | .Q5_1 | .Q8_0 => 64
  | .F16 | .F32 => 1
  | .Q2_K | .Q3_K | .Q4_K | .Q5_K => if ver_gen9 ≤ max_cc then 128 else 64
  | .IQ2_XXS | .IQ2_XS | .IQ1_S | .IQ3_XXS => if ver_gen9 ≤ max_cc then 128 else 64
  | .IQ3_S => if ver_gen9 ≤ max_cc then 128 else 64
  | .Q6_K => 64

theorem get_row_rounding_pos (max_cc ver_gen9 : ℤ) (t : GgmlType) :
    0 < get_row_rounding max_cc ver_gen9 t := by
  cases t <;> simp [get_row_rounding] <;> split <;> norm_num

/-- One raw split boundary: `ne01*tensor_split[·]` truncated to an integer
and, when strictly below `ne01`, rounded down to a multiple of `rounding`. -/
def split_bound (ne01 rounding : ℕ) (q : ℚ) : ℕ :=
  if (⌊(ne01 : ℚ) * q⌋).toNat < ne01 then
    (⌊(ne01 : ℚ) * q⌋).toNat - (⌊(ne01 : ℚ) * q⌋).toNat % rounding
  else (⌊(ne01 : ℚ) * q⌋).toNat

/-- `dev[i].row_low` as computed by `ggml_sycl_op_mul_mat`. -/
def dev_row_low (ts : ℕ → ℚ) (ne01 rounding i : ℕ) : ℕ :=
  if i = 0 then 0 else split_bound ne01 rounding (ts i)

/-- `dev[i].row_high` as computed by `ggml_sycl_op_mul_mat` for
`n = g_device_count` devices. -/
def dev_row_high (n : ℕ) (ts : ℕ → ℚ) (ne01 rounding i : ℕ) : ℕ :=
  if i = n - 1 then ne01 else split_bound ne01 rounding (ts (i + 1))

theorem split_bound_le (ne01 rounding : ℕ) (q : ℚ) (hq : q ≤ 1) :
    split_bound ne01 rounding q ≤ ne01 := by
  unfold split_bound
  have hr : (⌊(ne01 : ℚ) * q⌋).toNat ≤ ne01 := by
    rcases le_or_lt q 0 with hq0 | hq0
    · have : (ne01 : ℚ) * q ≤ 0 := mul_nonpos_of_nonneg_of_nonpos (by positivity) hq0
      have : ⌊(ne01 : ℚ) * q⌋ ≤ 0 := by
        calc ⌊(ne01 : ℚ) * q⌋ ≤ ⌊(0 : ℚ)⌋ := Int.floor_le_floor this
        _ = 0 := by norm_num
      omega
    · have h1 : (ne01 : ℚ) * q ≤ (ne01 : ℚ) :=
        mul_le_of_le_one_right (by positivity) hq
      have h2 : ⌊(ne01 : ℚ) * q⌋ ≤ (ne01 : ℤ) := by
        calc ⌊(ne01 : ℚ) * q⌋ ≤ ⌊(ne01 : ℚ)⌋ := Int.floor_le_floor h1
        _ = (ne01 : ℤ) := Int.floor_natCast ne01
      omega
  split <;> omega

theorem split_bound_mono (ne01 rounding : ℕ) (q1 q2 : ℚ) (hq : q1 ≤ q2) :
    split_bound ne01 rounding q1 ≤ split_bound ne01 rounding q2 := by
  unfold split_bound
  have hr : (⌊(ne01 : ℚ) * q1⌋).toNat ≤ (⌊(ne01 : ℚ) * q2⌋).toNat := by
    have := Int.floor_le_floor
      (mul_le_mul_of_nonneg_left hq (by positivity : (0 : ℚ) ≤ (ne01 : ℚ)))
    omega
  set r1 := (⌊(ne01 : ℚ) * q1⌋).toNat
  set r2 := (⌊(ne01 : ℚ) * q2⌋).toNat
  have h1 := Nat.div_add_mod r1 rounding
  have h2 := Nat.div_add_mod r2 rounding
  have hdiv : rounding * (r1 / rounding) ≤ rounding * (r2 / rounding) :=
    Nat.mul_le_mul_left rounding (Nat.div_le_div_right hr)
  split <;> split <;> omega

theorem split_bound_dvd (ne01 rounding : ℕ) (q : ℚ)
    (h : split_bound ne01 rounding q < ne01) :
    rounding ∣ split_bound ne01 rounding q := by
  unfold split_bound at h ⊢
  set r := (⌊(ne01 : ℚ) * q⌋).toNat
  by_cases hlt : r < ne01
  · rw [if_pos hlt]
    have hmod := Nat.div_add_mod r rounding
    have : r - r % rounding = rounding * (r / rounding) := by omega
    rw [this]
    exact Dvd.intro _ rfl
  · rw [if_neg hlt] at h
    omega

theorem dev_row_low_le_high (n : ℕ) (ts : ℕ → ℚ) (ne01 rounding i : ℕ)
    (hts1 : ∀ k, ts k ≤ 1) (hmono : ∀ k, ts k ≤ ts (k + 1)) :
    dev_row_low ts ne01 rounding i ≤ dev_row_high n ts ne01 rounding i := by
  unfold dev_row_low dev_row_high
  by_cases h0 : i = 0
  · simp [h0]
  · rw [if_neg h0]
    by_cases hl : i = n - 1
    · rw [if_pos hl]
      exact split_bound_le ne01 rounding (ts i) (hts1 i)
    · rw [if_neg hl]
      exact split_bound_mono ne01 rounding _ _ (hmono i)

theorem dev_row_high_eq_next_low (n : ℕ) (ts : ℕ → ℚ) (ne01 rounding i : ℕ)
    (hi : i + 1 < n) :
    dev_row_high n ts ne01 rounding i = dev_row_low ts ne01 rounding (i + 1) := by
  unfold dev_row_low dev_row_high
  rw [if_neg (by omega : ¬ i = n - 1), if_neg (by omega : ¬ i + 1 = 0)]

theorem dev_row_low_mono (n : ℕ) (ts : ℕ → ℚ) (ne01 rounding : ℕ)
    (hts1 : ∀ k, ts k ≤ 1) (hmono : ∀ k, ts k ≤ ts (k + 1)) :
    ∀ k k', k ≤ k' → k' < n →
      dev_row_low ts ne01 rounding k ≤ dev_row_low ts ne01 rounding k' := by
  intro k k' hk
  induction k' with
  | zero =>
    intro _
    have : k = 0 := by omega
    simp [this]
  | succ m ih =>
    intro hm
    rcases Nat.lt_or_ge k (m + 1) with hlt | hge
    · calc dev_row_low ts ne01 rounding k
          ≤ dev_row_low ts ne01 rounding m := by
            rcases Nat.eq_or_lt_of_le (Nat.le_of_lt_succ hlt) with he | hl
            · rw [he]
            · exact ih (by omega) (by omega)
      _ ≤ dev_row_high n ts ne01 rounding m :=
          dev_row_low_le_high n ts ne01 rounding m hts1 hmono
      _ = dev_row_low ts ne01 rounding (m + 1) :=
          dev_row_high_eq_next_low n ts ne01 rounding m (by omega)
    · have : k = m + 1 := by omega
      rw [this]

/-- **C4**: in `ggml_sycl_op_mul_mat` with a row-split weight tensor, the
device row boundaries satisfy: (i) `row_low` for `i ≠ 0` and `row_high` for
`i ≠` last, whenever strictly below `ne01`, are multiples of the
`get_row_rounding` alignment, so no quantized block straddles a device
boundary; (ii) consecutive devices share boundaries
(`row_high i = row_low (i+1)`); (iii) for nondecreasing split fractions in
`[0, 1]`, every weight row below `ne01` lies in exactly one device's
`[row_low, row_high)` range. -/
theorem ggml_sycl_op_mul_mat_row_split (n : ℕ) (ts : ℕ → ℚ)
    (ne01 rounding : ℕ) (hn : 0 < n)
    (hts1 : ∀ k, ts k ≤ 1) (hmono : ∀ k, ts k ≤ ts (k + 1)) :
    (∀ i, i ≠ 0 → dev_row_low ts ne01 rounding i < ne01 →
      rounding ∣ dev_row_low ts ne01 rounding i) ∧
    (∀ i, i ≠ n - 1 → dev_row_high n ts ne01 rounding i < ne01 →
      rounding ∣ dev_row_high n ts ne01 rounding i) ∧
    (∀ i, i + 1 < n →
      dev_row_high n ts ne01 rounding i = dev_row_low ts ne01 rounding (i + 1)) ∧
    (∀ j, j < ne01 → ∃! i, i < n ∧ dev_row_low ts ne01 rounding i ≤ j ∧
      j < dev_row_high n ts ne01 rounding i) := by
  refine ⟨?_, ?_, fun i hi => dev_row_high_eq_next_low n ts ne01 rounding i hi, ?_⟩
  · intro i h0 hlt
    unfold dev_row_low at hlt ⊢
    rw [if_neg h0] at hlt ⊢
    exact split_bound_dvd ne01 rounding (ts i) hlt
  · intro i hl hlt
    unfold dev_row_high at hlt ⊢
    rw [if_neg hl] at hlt ⊢
    exact split_bound_dvd ne01 rounding (ts (i + 1)) hlt
  · intro j hj
    set L := dev_row_low ts ne01 rounding with hL
    set H := dev_row_high n ts ne01 rounding with hH
    have hL0 : L 0 = 0 := by rw [hL]; unfold dev_row_low; simp
    have hHlast : H (n - 1) = ne01 := by rw [hH]; unfold dev_row_high; simp
    -- the greatest device index whose row_low is at most j
    set P : ℕ → Prop := fun i => i < n ∧ L i ≤ j with hP
    have hP0 : P 0 := ⟨hn, by omega⟩
    set i0 := Nat.findGreatest P (n - 1) with hi0
    have hPi0 : P i0 := Nat.findGreatest_spec (Nat.zero_le _) hP0
    have hup : j < H i0 := by
      by_cases hlast : i0 = n - 1
      · rw [hlast, hHlast]; exact hj
      · have hnext : i0 + 1 < n := by
          have := @Nat.findGreatest_le P _ (n - 1)
          omega
        by_contra hge
        push_neg at hge
        have hnextlow : L (i0 + 1) ≤ j := by
          have he : H i0 = L (i0 + 1) :=
            dev_row_high_eq_next_low n ts ne01 rounding i0 hnext
          omega
        have hle : i0 ≤ n - 1 := Nat.findGreatest_le (n - 1)
        have hkk : Nat.findGreatest P (n - 1) < i0 + 1 := by omega
        have : ¬ P (i0 + 1) := Nat.findGreatest_is_greatest hkk (by omega)
        exact this ⟨hnext, hnextlow⟩
    refine ⟨i0, ⟨hPi0.1, hPi0.2, hup⟩, ?_⟩
    intro i' ⟨hi'n, hi'low, hi'high⟩
    by_contra hne
    rcases Nat.lt_or_ge i' i0 with hlt | hge
    · -- i' below the found index: its range ends before j
      have hchain : L (i' + 1) ≤ L i0 :=
        dev_row_low_mono n ts ne01 rounding hts1 hmono (i' + 1) i0 (by omega)
          hPi0.1
      have : H i' = L (i' + 1) :=
        dev_row_high_eq_next_low n ts ne01 rounding i' (by omega)
      omega
    · have hgt : i0 < i' := by omega
      have : H i0 = L (i0 + 1) :=
        dev_row_high_eq_next_low n ts ne01 rounding i0 (by omega)
      have hchain : L (i0 + 1) ≤ L i' :=
        dev_row_low_mono n ts ne01 rounding hts1 hmono (i0 + 1) i' (by omega) hi'n
      omega

/-- Witness for C4: two devices, split fractions `0, 1/2, 1`, 100 rows,
alignment 64. -/
theorem ggml_sycl_op_mul_mat_row_split_witness :
    ∃! i, i < 2 ∧ dev_row_low (fun k => min ((k : ℚ) / 2) 1) 100 64 i ≤ 70 ∧
      70 < dev_row_high 2 (fun k => min ((k : ℚ) / 2) 1) 100 64 i :=
  (ggml_sycl_op_mul_mat_row_split 2 (fun k => min ((k : ℚ) / 2) 1) 100 64
    (by norm_num)
    (fun k => min_le_right _ _)
    (fun k => by
      apply le_min
      · have h1 : min ((k : ℚ) / 2) 1 ≤ (k : ℚ) / 2 := min_le_left _ _
        have h2 : (k : ℚ) / 2 ≤ ((k + 1 : ℕ) : ℚ) / 2 := by push_cast; linarith
        linarith
      · exact min_le_right _ _)).2.2.2 70 (by norm_num)

/-! ## The legacy device buffer pool (claims C5, C6, C9)

`ggml_sycl_pool_malloc_leg` / `ggml_sycl_pool_free_leg` for one device's
slot table.  A raw device pointer is a `ℕ` with `0` playing `nullptr`;
`sycl::malloc_device` is modelled by a fresh-pointer supply plus an
allocation counter, and the slot table (`g_sycl_buffer_pool[device]`,
`MAX_SYCL_BUFFERS` entries) by a list of slots. -/

/-- One slot of `g_sycl_buffer_pool` (`ptr = 0` is an empty slot). -/
structure SyclBuffer where
  ptr : ℕ
  size : ℕ
deriving DecidableEq

/-- Per-device pool state: the slot table, the cumulative pool size
(`g_sycl_pool_size`), and the device allocator (fresh pointer supply and
count of `sycl::malloc_device` calls). -/
structure PoolState where
  pool : List SyclBuffer
  pool_size : ℕ
  next_ptr : ℕ
  alloc_count : ℕ
deriving DecidableEq

/-- The best-fit scan of `ggml_sycl_pool_malloc_leg`: walk the indexed slot
list keeping the smallest surplus strictly below the running bound
(initially `1ull << 36`), returning immediately on an exact fit. -/
def pool_scan (size : ℕ) : List (ℕ × SyclBuffer) → ℕ → Option ℕ → ℕ × Option ℕ
  | [], best_diff, ibest => (best_diff, ibest)
  | (i, b) :: rest, best_diff, ibest =>
    if b.ptr ≠ 0 then
      if size ≤ b.size then
        if b.size - size < best_diff then
          if b.size - size = 0 then (0, some i)
          else pool_scan size rest (b.size - size) (some i)
        else pool_scan size rest best_diff ibest
      else pool_scan size rest best_diff ibest
    else pool_scan size rest best_diff ibest

/-- `look_ahead_size = 256 * (((size_t)(1.05*size) + 255) / 256)`. -/
def look_ahead_size (size : ℕ) : ℕ := 256 * ((21 * size / 20 + 255) / 256)

/-- `ggml_sycl_pool_malloc_leg`: best-fit reuse from the pool, else a fresh
device allocation of `look_ahead_size`.  Returns
`(ptr, *actual_size, new state)`. -/
def ggml_sycl_pool_malloc_leg (st : PoolState) (size : ℕ) : ℕ × ℕ × PoolState :=
  match (pool_scan size st.pool.enum (2 ^ 36) none).2 with
  | some i =>
    let b := (st.pool.getD i ⟨0, 0⟩)
    (b.ptr, b.size, { st with pool := st.pool.set i ⟨0, 0⟩ })
  | none =>
    (st.next_ptr, look_ahead_size size,
      { st with pool_size := st.pool_size + look_ahead_size size,
                next_ptr := st.next_ptr + 1,
                alloc_count := st.alloc_count + 1 })

/-- Insert a released buffer into the first empty slot, if any. -/
def pool_insert (ptr size : ℕ) : List SyclBuffer → Option (List SyclBuffer)
  | [] => none
  | b :: rest =>
    if b.ptr = 0 then some (⟨ptr, size⟩ :: rest)
    else (pool_insert ptr size rest).map (b :: ·)

/-- `ggml_sycl_pool_free_leg`: pool the buffer in the first empty slot; if
the table is full, free it immediately and shrink the pool size counter. -/
def ggml_sycl_pool_free_leg (st : PoolState) (ptr size : ℕ) : PoolState :=
  match pool_insert ptr size st.pool with
  | some pool' => { st with pool := pool' }
  | none => { st with pool_size := st.pool_size - size }

theorem pool_scan_cons (size i : ℕ) (b : SyclBuffer)
    (rest : List (ℕ × SyclBuffer)) (bd : ℕ) (ib : Option ℕ) :
    pool_scan size ((i, b) :: rest) bd ib =
      if b.ptr ≠ 0 then
        if size ≤ b.size then
          if b.size - size < bd then
            if b.size - size = 0 then (0, some i)
            else pool_scan size rest (b.size - size) (some i)
          else pool_scan size rest bd ib
        else pool_scan size rest bd ib
      else pool_scan size rest bd ib := rfl

/-- Scan specification: either no slot beats the running bound and the
accumulator is returned unchanged, or the scan returns an eligible slot of
minimal surplus. -/
theorem pool_scan_spec (size : ℕ) (l : List (ℕ × SyclBuffer)) (bd : ℕ)
    (ib : Option ℕ) :
    (pool_scan size l bd ib = (bd, ib) ∧
      ∀ p ∈ l, ¬(p.2.ptr ≠ 0 ∧ size ≤ p.2.size ∧ p.2.size - size < bd)) ∨
    (∃ i b, (i, b) ∈ l ∧ b.ptr ≠ 0 ∧ size ≤ b.size ∧ b.size - size < bd ∧
      pool_scan size l bd ib = (b.size - size, some i) ∧
      ∀ q ∈ l, q.2.ptr ≠ 0 → size ≤ q.2.size →
        b.size - size ≤ q.2.size - size) := by
  induction l generalizing bd ib with
  | nil => left; exact ⟨rfl, by simp⟩
  | cons p rest ih =>
    obtain ⟨i, b⟩ := p
    by_cases hptr : b.ptr ≠ 0
    on_goal 2 =>
      rw [pool_scan_cons, if_neg hptr]
      rcases ih bd ib with ⟨heq, hall⟩ | ⟨i', b', hmem, h1, h2, h3, h4, h5⟩
      · left
        refine ⟨heq, ?_⟩
        intro q hq
        rcases List.mem_cons.mp hq with rfl | hq'
        · simp at hptr; simp [hptr]
        · exact hall q hq'
      · right
        refine ⟨i', b', List.mem_cons_of_mem _ hmem, h1, h2, h3, h4, ?_⟩
        intro q hq
        rcases List.mem_cons.mp hq with rfl | hq'
        · intro hqp; simp at hptr; simp [hptr] at hqp
        · exact h5 q hq'
    by_cases hsz : size ≤ b.size
    on_goal 2 =>
      rw [pool_scan_cons, if_pos hptr, if_neg hsz]
      rcases ih bd ib with ⟨heq, hall⟩ | ⟨i', b', hmem, h1, h2, h3, h4, h5⟩
      · left
        refine ⟨heq, ?_⟩
        intro q hq
        rcases List.mem_cons.mp hq with rfl | hq'
        · intro hc; exact hsz hc.2.1
        · exact hall q hq'
      · right
        refine ⟨i', b', List.mem_cons_of_mem _ hmem, h1, h2, h3, h4, ?_⟩
        intro q hq
        rcases List.mem_cons.mp hq with rfl | hq'
        · intro _ hc; exact absurd hc hsz
        · exact h5 q hq'
    by_cases hbd : b.size - size < bd
    on_goal 2 =>
      rw [pool_scan_cons, if_pos hptr, if_pos hsz, if_neg hbd]
      rcases ih bd ib with ⟨heq, hall⟩ | ⟨i', b', hmem, h1, h2, h3, h4, h5⟩
      · left
        refine ⟨heq, ?_⟩
        intro q hq
        rcases List.mem_cons.mp hq with rfl | hq'
        · intro hc; exact hbd hc.2.2
        · exact hall q hq'
      · right
        refine ⟨i', b', List.mem_cons_of_mem _ hmem, h1, h2, h3, h4, ?_⟩
        intro q hq
        rcases List.mem_cons.mp hq with rfl | hq'
        · intro hq1 hq2
          dsimp only at hq1 hq2 ⊢
          omega
        · exact h5 q hq'
    by_cases hz : b.size - size = 0
    · right
      refine ⟨i, b, List.mem_cons_self _ _, hptr, hsz, hbd, ?_, ?_⟩
      · rw [pool_scan_cons, if_pos hptr, if_pos hsz, if_pos hbd, if_pos hz, hz]
      · intro q _ _ _; omega
    · rw [pool_scan_cons, if_pos hptr, if_pos hsz, if_pos hbd, if_neg hz]
      rcases ih (b.size - size) (some i) with ⟨heq, hall⟩ | ⟨i', b', hmem, h1, h2, h3, h4, h5⟩
      · right
        refine ⟨i, b, List.mem_cons_self _ _, hptr, hsz, hbd, heq, ?_⟩
        intro q hq hq1 hq2
        rcases List.mem_cons.mp hq with rfl | hq'
        · dsimp only at hq1 hq2 ⊢
          omega
        · have := hall q hq'
          omega
      · right
        refine ⟨i', b', List.mem_cons_of_mem _ hmem, h1, h2, by omega, h4, ?_⟩
        intro q hq hq1 hq2
        rcases List.mem_cons.mp hq with rfl | hq'
        · dsimp only at hq1 hq2 ⊢
          omega
        · exact h5 q hq' hq1 hq2

/-- The fresh-allocation result of the pool allocator. -/
def pool_fresh_alloc (st : PoolState) (size : ℕ) : ℕ × ℕ × PoolState :=
  (st.next_ptr, look_ahead_size size,
    { st with pool_size := st.pool_size + look_ahead_size size,
              next_ptr := st.next_ptr + 1,
              alloc_count := st.alloc_count + 1 })

theorem mem_enum_of_mem {α : Type} {a : α} {l : List α} (h : a ∈ l) :
    ∃ i, (i, a) ∈ l.enum := by
  obtain ⟨i, hi⟩ := List.mem_iff_getElem?.mp h
  exact ⟨i, List.mk_mem_enum_iff_getElem?.mpr hi⟩

theorem mem_of_mem_enum {α : Type} {i : ℕ} {a : α} {l : List α}
    (h : (i, a) ∈ l.enum) : a ∈ l :=
  List.mem_iff_getElem?.mpr ⟨i, List.mk_mem_enum_iff_getElem?.mp h⟩

theorem pool_malloc_huge_surplus_aux (st : PoolState) (size : ℕ)
    (hall : ∀ b ∈ st.pool, b.ptr ≠ 0 → size ≤ b.size → 2 ^ 36 ≤ b.size - size) :
    ggml_sycl_pool_malloc_leg st size = pool_fresh_alloc st size := by
  rcases pool_scan_spec size st.pool.enum (2 ^ 36) none with
    ⟨heq, _⟩ | ⟨i, b, hmem, h1, h2, h3, _, _⟩
  · unfold ggml_sycl_pool_malloc_leg pool_fresh_alloc
    rw [heq]
  · have hb : b ∈ st.pool := mem_of_mem_enum hmem
    have := hall b hb h1 h2
    omega

/-- **C9**: a pooled buffer is eligible for best-fit reuse only when its
surplus is strictly below `2^36` (the `best_diff` search starts at
`1ull << 36`): when every sufficiently large pooled buffer has surplus
`≥ 2^36`, the pool is ignored and a fresh device allocation is performed
even though a large-enough pooled buffer exists. -/
theorem pool_malloc_huge_surplus_ignored (st : PoolState) (size : ℕ)
    (hex : ∃ b ∈ st.pool, b.ptr ≠ 0 ∧ size ≤ b.size)
    (hall : ∀ b ∈ st.pool, b.ptr ≠ 0 → size ≤ b.size → 2 ^ 36 ≤ b.size - size) :
    ggml_sycl_pool_malloc_leg st size = pool_fresh_alloc st size :=
  pool_malloc_huge_surplus_aux st size hall

/-- Witness for C9: one resident buffer of size `2^36 + 200`, request 100. -/
theorem pool_malloc_huge_surplus_ignored_witness :
    ggml_sycl_pool_malloc_leg ⟨[⟨7, 2 ^ 36 + 200⟩], 2 ^ 36 + 200, 9, 1⟩ 100 =
      pool_fresh_alloc ⟨[⟨7, 2 ^ 36 + 200⟩], 2 ^ 36 + 200, 9, 1⟩ 100 :=
  pool_malloc_huge_surplus_ignored _ 100 (by decide) (by decide)

/-- Concrete pool state for the C5 counterexample: a single resident buffer
large enough for the request but with surplus `≥ 2^36`. -/
def c5State : PoolState := ⟨[⟨7, 2 ^ 36 + 200⟩], 2 ^ 36 + 200, 9, 1⟩

/-- **C5 counterexample**: a pooled buffer of byte size `≥ size` exists, yet
`ggml_sycl_pool_malloc_leg` performs a fresh device allocation instead of
returning it — its surplus reaches the `1ull << 36` starting bound of the
best-fit search. -/
theorem pool_malloc_best_fit_counterexample :
    (∃ b ∈ c5State.pool, b.ptr ≠ 0 ∧ 100 ≤ b.size) ∧
    (ggml_sycl_pool_malloc_leg c5State 100).1 = c5State.next_ptr ∧
    (ggml_sycl_pool_malloc_leg c5State 100).2.2.alloc_count =
      c5State.alloc_count + 1 := by
  refine ⟨by decide, ?_⟩
  have h := pool_malloc_huge_surplus_aux c5State 100 (by decide)
  rw [h]
  exact ⟨rfl, rfl⟩

theorem pool_malloc_leg_branches (st : PoolState) (size : ℕ) :
    ((∃ b ∈ st.pool, b.ptr ≠ 0 ∧ size ≤ b.size ∧ b.size - size < 2 ^ 36) →
      ∃ i b, st.pool[i]? = some b ∧ b.ptr ≠ 0 ∧ size ≤ b.size ∧
        (∀ q ∈ st.pool, q.ptr ≠ 0 → size ≤ q.size →
          b.size - size ≤ q.size - size) ∧
        ggml_sycl_pool_malloc_leg st size =
          (b.ptr, b.size, { st with pool := st.pool.set i ⟨0, 0⟩ })) ∧
    ((∀ b ∈ st.pool, ¬(b.ptr ≠ 0 ∧ size ≤ b.size ∧ b.size - size < 2 ^ 36)) →
      ggml_sycl_pool_malloc_leg st size = pool_fresh_alloc st size) := by
  rcases pool_scan_spec size st.pool.enum (2 ^ 36) none with
    ⟨heq, hall⟩ | ⟨i, b, hmem, h1, h2, h3, h4, h5⟩
  · constructor
    · rintro ⟨b, hb, hb1, hb2, hb3⟩
      obtain ⟨i, hi⟩ := mem_enum_of_mem hb
      exact absurd ⟨hb1, hb2, hb3⟩ (hall (i, b) hi)
    · intro _
      unfold ggml_sycl_pool_malloc_leg pool_fresh_alloc
      rw [heq]
  · have hb : b ∈ st.pool := mem_of_mem_enum hmem
    have hget : st.pool[i]? = some b := List.mk_mem_enum_iff_getElem?.mp hmem
    constructor
    · intro _
      refine ⟨i, b, hget, h1, h2, ?_, ?_⟩
      · intro q hq hq1 hq2
        obtain ⟨j, hj⟩ := mem_enum_of_mem hq
        exact h5 (j, q) hj hq1 hq2
      · unfold ggml_sycl_pool_malloc_leg
        rw [h4]
        have hgd : st.pool.getD i ⟨0, 0⟩ = b := by
          rw [List.getD_eq_getElem?_getD, hget]
          rfl
        dsimp only
        rw [hgd]
    · intro hnone
      exact absurd ⟨h1, h2, h3⟩ (hnone b hb)

/-- **C5 (amended)**: for every call `ggml_sycl_pool_malloc_leg(size)`: if at
least one pooled buffer has byte size `≥ size` *and surplus below `2^36`*,
the call returns a pooled buffer whose surplus is minimal among all pooled
buffers of sufficient size, empties that slot, leaves the allocation
counters untouched, and sets `*actual_size` to the buffer's stored size;
otherwise it allocates a fresh device buffer of `1.05*size` rounded up to
the next 256-byte boundary, sets `*actual_size` to that rounded size, and
adds it to the cumulative pool-size counter. -/
theorem ggml_sycl_pool_malloc_leg_spec (st : PoolState) (size : ℕ) :
    ((∃ b ∈ st.pool, b.ptr ≠ 0 ∧ size ≤ b.size ∧ b.size - size < 2 ^ 36) →
      ∃ i b, st.pool[i]? = some b ∧ b.ptr ≠ 0 ∧ size ≤ b.size ∧
        (∀ q ∈ st.pool, q.ptr ≠ 0 → size ≤ q.size →
          b.size - size ≤ q.size - size) ∧
        ggml_sycl_pool_malloc_leg st size =
          (b.ptr, b.size, { st with pool := st.pool.set i ⟨0, 0⟩ })) ∧
    ((∀ b ∈ st.pool, ¬(b.ptr ≠ 0 ∧ size ≤ b.size ∧ b.size - size < 2 ^ 36)) →
      ggml_sycl_pool_malloc_leg st size = pool_fresh_alloc st size) :=
  pool_malloc_leg_branches st size

/-- Witness for the amended C5: exact fit present in a two-slot pool. -/
theorem ggml_sycl_pool_malloc_leg_spec_witness :
    ∃ i b, (⟨[⟨0, 0⟩, ⟨7, 300⟩], 300, 9, 1⟩ : PoolState).pool[i]? = some b ∧
      b.ptr ≠ 0 ∧ 300 ≤ b.size ∧
      (∀ q ∈ (⟨[⟨0, 0⟩, ⟨7, 300⟩], 300, 9, 1⟩ : PoolState).pool,
        q.ptr ≠ 0 → 300 ≤ q.size → b.size - 300 ≤ q.size - 300) ∧
      ggml_sycl_pool_malloc_leg ⟨[⟨0, 0⟩, ⟨7, 300⟩], 300, 9, 1⟩ 300 =
        (b.ptr, b.size,
          { (⟨[⟨0, 0⟩, ⟨7, 300⟩], 300, 9, 1⟩ : PoolState) with
            pool := (⟨[⟨0, 0⟩, ⟨7, 300⟩], 300, 9, 1⟩ : PoolState).pool.set i ⟨0, 0⟩ }) :=
  (ggml_sycl_pool_malloc_leg_spec ⟨[⟨0, 0⟩, ⟨7, 300⟩], 300, 9, 1⟩ 300).1 (by decide)

theorem pool_insert_cons (p s : ℕ) (b : SyclBuffer) (rest : List SyclBuffer) :
    pool_insert p s (b :: rest) =
      if b.ptr = 0 then some (⟨p, s⟩ :: rest)
      else (pool_insert p s rest).map (b :: ·) := rfl

theorem pool_insert_mem (p s : ℕ) (l l' : List SyclBuffer)
    (h : pool_insert p s l = some l') :
    (⟨p, s⟩ : SyclBuffer) ∈ l' ∧ ∀ q ∈ l', q = ⟨p, s⟩ ∨ q ∈ l := by
  induction l generalizing l' with
  | nil => exact absurd h (by simp [pool_insert])
  | cons b rest ih =>
    by_cases hb : b.ptr = 0
    · rw [pool_insert_cons, if_pos hb] at h
      obtain rfl := Option.some_injective _ h
      refine ⟨List.mem_cons_self _ _, ?_⟩
      intro q hq
      rcases List.mem_cons.mp hq with rfl | hq'
      · exact Or.inl rfl
      · exact Or.inr (List.mem_cons_of_mem _ hq')
    · rw [pool_insert_cons, if_neg hb] at h
      obtain ⟨rest', hrest, rfl⟩ := Option.map_eq_some'.mp h
      obtain ⟨hmem, hall⟩ := ih rest' hrest
      refine ⟨List.mem_cons_of_mem _ hmem, ?_⟩
      intro q hq
      rcases List.mem_cons.mp hq with rfl | hq'
      · exact Or.inr (List.mem_cons_self _ _)
      · rcases hall q hq' with h1 | h1
        · exact Or.inl h1
        · exact Or.inr (List.mem_cons_of_mem _ h1)

set_option maxRecDepth 100000 in
/-- **C6 counterexample**: allocate a buffer of size `S = 2^36` from an
empty 256-slot pool, release it back (the release is pooled), then request
`100 ≤ S`: the released buffer is resident and large enough, yet the
allocator returns a different pointer and issues a fresh device allocation,
because the released buffer's surplus reaches the `1ull << 36` bound. -/
theorem pool_reuse_counterexample :
    (ggml_sycl_pool_malloc_leg
        (ggml_sycl_pool_free_leg
          (ggml_sycl_pool_malloc_leg
            ⟨List.replicate 256 ⟨0, 0⟩, 0, 1, 0⟩ (2 ^ 36)).2.2
          (ggml_sycl_pool_malloc_leg
            ⟨List.replicate 256 ⟨0, 0⟩, 0, 1, 0⟩ (2 ^ 36)).1
          (ggml_sycl_pool_malloc_leg
            ⟨List.replicate 256 ⟨0, 0⟩, 0, 1, 0⟩ (2 ^ 36)).2.1)
        100).1 ≠
      (ggml_sycl_pool_malloc_leg ⟨List.replicate 256 ⟨0, 0⟩, 0, 1, 0⟩ (2 ^ 36)).1 ∧
    (∃ b ∈ (ggml_sycl_pool_free_leg
          (ggml_sycl_pool_malloc_leg
            ⟨List.replicate 256 ⟨0, 0⟩, 0, 1, 0⟩ (2 ^ 36)).2.2
          (ggml_sycl_pool_malloc_leg
            ⟨List.replicate 256 ⟨0, 0⟩, 0, 1, 0⟩ (2 ^ 36)).1
          (ggml_sycl_pool_malloc_leg
            ⟨List.replicate 256 ⟨0, 0⟩, 0, 1, 0⟩ (2 ^ 36)).2.1).pool,
        b.ptr = (ggml_sycl_pool_malloc_leg
            ⟨List.replicate 256 ⟨0, 0⟩, 0, 1, 0⟩ (2 ^ 36)).1 ∧ 100 ≤ b.size) ∧
    (ggml_sycl_pool_malloc_leg
        (ggml_sycl_pool_free_leg
          (ggml_sycl_pool_malloc_leg
            ⟨List.replicate 256 ⟨0, 0⟩, 0, 1, 0⟩ (2 ^ 36)).2.2
          (ggml_sycl_pool_malloc_leg
            ⟨List.replicate 256 ⟨0, 0⟩, 0, 1, 0⟩ (2 ^ 36)).1
          (ggml_sycl_pool_malloc_leg
            ⟨List.replicate 256 ⟨0, 0⟩, 0, 1, 0⟩ (2 ^ 36)).2.1)
        100).2.2.alloc_count = 2 := by
  decide

/-- **C6 (amended)**: after a buffer `(ptr, S)` is released back to the pool
(the release actually pooled), a subsequent allocate request for any size
`≤ S` whose surplus `S - size` is below `2^36`, in a pool holding no other
resident buffer of sufficient size, returns the same pointer with
`*actual_size = S` and without issuing a fresh device allocation. -/
theorem pool_reuse_after_free (st : PoolState) (ptr S size : ℕ)
    (hptr : ptr ≠ 0)
    (hpooled : ∃ pool', pool_insert ptr S st.pool = some pool')
    (hsz : size ≤ S) (hsur : S - size < 2 ^ 36)
    (hno : ∀ b ∈ st.pool, b.ptr ≠ 0 → ¬ size ≤ b.size) :
    (ggml_sycl_pool_malloc_leg (ggml_sycl_pool_free_leg st ptr S) size).1 = ptr ∧
    (ggml_sycl_pool_malloc_leg (ggml_sycl_pool_free_leg st ptr S) size).2.1 = S ∧
    (ggml_sycl_pool_malloc_leg
      (ggml_sycl_pool_free_leg st ptr S) size).2.2.alloc_count = st.alloc_count := by
  obtain ⟨pool', hins⟩ := hpooled
  have hfree : ggml_sycl_pool_free_leg st ptr S = { st with pool := pool' } := by
    unfold ggml_sycl_pool_free_leg
    rw [hins]
  obtain ⟨hmem, hall⟩ := pool_insert_mem ptr S st.pool pool' hins
  rw [hfree]
  obtain ⟨i, b, hget, h1, h2, _, heq⟩ :=
    (pool_malloc_leg_branches { st with pool := pool' } size).1
      ⟨⟨ptr, S⟩, hmem, hptr, hsz, hsur⟩
  have hb : b ∈ pool' := List.mem_iff_getElem?.mpr ⟨i, hget⟩
  have hbe : b = ⟨ptr, S⟩ := by
    rcases hall b hb with h | h
    · exact h
    · exact absurd h2 (hno b h h1)
  rw [heq, hbe]
  exact ⟨rfl, rfl, rfl⟩

/-- Witness for the amended C6: buffer `(7, 300)` released into a two-slot
pool whose other slot is empty, then re-requested at size 300. -/
theorem pool_reuse_after_free_witness :
    (ggml_sycl_pool_malloc_leg
      (ggml_sycl_pool_free_leg ⟨[⟨0, 0⟩, ⟨0, 0⟩], 300, 9, 4⟩ 7 300) 300).1 = 7 ∧
    (ggml_sycl_pool_malloc_leg
      (ggml_sycl_pool_free_leg ⟨[⟨0, 0⟩, ⟨0, 0⟩], 300, 9, 4⟩ 7 300) 300).2.1 = 300 ∧
    (ggml_sycl_pool_malloc_leg
      (ggml_sycl_pool_free_leg ⟨[⟨0, 0⟩, ⟨0, 0⟩], 300, 9, 4⟩ 7 300) 300).2.2.alloc_count = 4 :=
  pool_reuse_after_free ⟨[⟨0, 0⟩, ⟨0, 0⟩], 300, 9, 4⟩ 7 300 300
    (by norm_num) ⟨⟨7, 300⟩ :: [⟨0, 0⟩], by decide⟩ (by norm_num) (by norm_num)
    (by decide)
